import Mathlib

/-!
# The afero filter chain (`filter.go`)

A shallow embedding of `Filter` from `filter.go`: a filesystem decorator holding
an ordered chain of filter filesystems and one source filesystem.

* Go interface values of type `error`, `File` and `os.FileInfo` may be `nil`;
  they are `Option Err`, `Option File`, `Option FileInfo`.
* A filesystem capability (`Fs`) is an object with mutable state living in the
  heap.  The heap is an explicit state `σ` threaded through every method call.
* Every `Filter` method is a `for ... range f.chain` loop with an early
  `return`; each loop is a structural recursion over the chain.
-/

set_option autoImplicit false

namespace Afero

/-- Go's `os.FileMode` (an unsigned 32 bit integer; no arithmetic is done on it here). -/
abbrev FileMode := Nat

/-- Go's `time.Time`, an instant (no arithmetic is done on it here). -/
abbrev Time := Int

/-- The `Fs` interface as `filter.go` consumes it: the twelve methods `Filter`
calls on its filters and on its source.  A method takes its Go arguments and the
heap, and returns its Go results and the heap after the call. -/
structure Fs (File FileInfo Err σ : Type) where
  Create : String → σ → (Option File × Option Err) × σ
  Mkdir : String → FileMode → σ → Option Err × σ
  MkdirAll : String → FileMode → σ → Option Err × σ
  Open : String → σ → (Option File × Option Err) × σ
  OpenFile : String → Int → FileMode → σ → (Option File × Option Err) × σ
  Remove : String → σ → Option Err × σ
  RemoveAll : String → σ → Option Err × σ
  Rename : String → String → σ → Option Err × σ
  Stat : String → σ → (Option FileInfo × Option Err) × σ
  Name : σ → String × σ
  Chmod : String → FileMode → σ → Option Err × σ
  Chtimes : String → Time → Time → σ → Option Err × σ

/-- The struct `Filter`: `chain []Fs` and `source Fs`. -/
structure Filter (File FileInfo Err σ : Type) where
  chain : List (Fs File FileInfo Err σ)
  source : Fs File FileInfo Err σ

variable {File FileInfo Err σ : Type}

/-- `NewFilter(fs)` is `&Filter{source: fs}`: the chain is the zero value, a nil slice. -/
def NewFilter (fs : Fs File FileInfo Err σ) : Filter File FileInfo Err σ :=
  { chain := [], source := fs }

/-- `AddFilter`: `c := []Fs{fs}`, then every element of `f.chain` is appended to `c`
in range order, then `f.chain = c`. -/
def Filter.AddFilter (f : Filter File FileInfo Err σ) (fs : Fs File FileInfo Err σ) :
    Filter File FileInfo Err σ :=
  { f with chain := f.chain.foldl (fun c ch => c ++ [ch]) [fs] }

/-- The loop and final statement of `Filter.Create`, over the part of the chain
still to be ranged over. -/
def Filter.CreateLoop (source : Fs File FileInfo Err σ) (name : String) :
    List (Fs File FileInfo Err σ) → σ → (Option File × Option Err) × σ
  | [], w => source.Create name w
  | c :: rest, w =>
    match c.Create name w with
    | ((file, err), w1) => if err.isSome then ((file, err), w1) else Filter.CreateLoop source name rest w1

/-- `func (f *Filter) Create(name string) (file File, err error)`. -/
def Filter.Create (f : Filter File FileInfo Err σ) (name : String) (w : σ) :
    (Option File × Option Err) × σ :=
  Filter.CreateLoop f.source name f.chain w

/-- The loop and final statement of `Filter.Mkdir`. -/
def Filter.MkdirLoop (source : Fs File FileInfo Err σ) (name : String) (perm : FileMode) :
    List (Fs File FileInfo Err σ) → σ → Option Err × σ
  | [], w => source.Mkdir name perm w
  | c :: rest, w =>
    match c.Mkdir name perm w with
    | (err, w1) => if err.isSome then (err, w1) else Filter.MkdirLoop source name perm rest w1

/-- `func (f *Filter) Mkdir(name string, perm os.FileMode) (err error)`. -/
def Filter.Mkdir (f : Filter File FileInfo Err σ) (name : String) (perm : FileMode) (w : σ) :
    Option Err × σ :=
  Filter.MkdirLoop f.source name perm f.chain w

/-- The loop and final statement of `Filter.MkdirAll`. -/
def Filter.MkdirAllLoop (source : Fs File FileInfo Err σ) (path : String) (perm : FileMode) :
    List (Fs File FileInfo Err σ) → σ → Option Err × σ
  | [], w => source.MkdirAll path perm w
  | c :: rest, w =>
    match c.MkdirAll path perm w with
    | (err, w1) => if err.isSome then (err, w1) else Filter.MkdirAllLoop source path perm rest w1

/-- `func (f *Filter) MkdirAll(path string, perm os.FileMode) (err error)`. -/
def Filter.MkdirAll (f : Filter File FileInfo Err σ) (path : String) (perm : FileMode) (w : σ) :
    Option Err × σ :=
  Filter.MkdirAllLoop f.source path perm f.chain w

/-- The loop and final statement of `Filter.Open`. -/
def Filter.OpenLoop (source : Fs File FileInfo Err σ) (name : String) :
    List (Fs File FileInfo Err σ) → σ → (Option File × Option Err) × σ
  | [], w => source.Open name w
  | c :: rest, w =>
    match c.Open name w with
    | ((file, err), w1) => if err.isSome then ((file, err), w1) else Filter.OpenLoop source name rest w1

/-- `func (f *Filter) Open(name string) (file File, err error)`. -/
def Filter.Open (f : Filter File FileInfo Err σ) (name : String) (w : σ) :
    (Option File × Option Err) × σ :=
  Filter.OpenLoop f.source name f.chain w

/-- The loop and final statement of `Filter.OpenFile`. -/
def Filter.OpenFileLoop (source : Fs File FileInfo Err σ) (name : String) (flag : Int)
    (perm : FileMode) : List (Fs File FileInfo Err σ) → σ → (Option File × Option Err) × σ
  | [], w => source.OpenFile name flag perm w
  | c :: rest, w =>
    match c.OpenFile name flag perm w with
    | ((file, err), w1) =>
      if err.isSome then ((file, err), w1) else Filter.OpenFileLoop source name flag perm rest w1

/-- `func (f *Filter) OpenFile(name string, flag int, perm os.FileMode) (file File, err error)`. -/
def Filter.OpenFile (f : Filter File FileInfo Err σ) (name : String) (flag : Int)
    (perm : FileMode) (w : σ) : (Option File × Option Err) × σ :=
  Filter.OpenFileLoop f.source name flag perm f.chain w

/-- The loop and final statement of `Filter.Remove`. -/
def Filter.RemoveLoop (source : Fs File FileInfo Err σ) (name : String) :
    List (Fs File FileInfo Err σ) → σ → Option Err × σ
  | [], w => source.Remove name w
  | c :: rest, w =>
    match c.Remove name w with
    | (err, w1) => if err.isSome then (err, w1) else Filter.RemoveLoop source name rest w1

/-- `func (f *Filter) Remove(name string) (err error)`. -/
def Filter.Remove (f : Filter File FileInfo Err σ) (name : String) (w : σ) : Option Err × σ :=
  Filter.RemoveLoop f.source name f.chain w

/-- The loop and final statement of `Filter.RemoveAll`. -/
def Filter.RemoveAllLoop (source : Fs File FileInfo Err σ) (path : String) :
    List (Fs File FileInfo Err σ) → σ → Option Err × σ
  | [], w => source.RemoveAll path w
  | c :: rest, w =>
    match c.RemoveAll path w with
    | (err, w1) => if err.isSome then (err, w1) else Filter.RemoveAllLoop source path rest w1

/-- `func (f *Filter) RemoveAll(path string) (err error)`. -/
def Filter.RemoveAll (f : Filter File FileInfo Err σ) (path : String) (w : σ) : Option Err × σ :=
  Filter.RemoveAllLoop f.source path f.chain w

/-- The loop and final statement of `Filter.Rename`. -/
def Filter.RenameLoop (source : Fs File FileInfo Err σ) (oldname newname : String) :
    List (Fs File FileInfo Err σ) → σ → Option Err × σ
  | [], w => source.Rename oldname newname w
  | c :: rest, w =>
    match c.Rename oldname newname w with
    | (err, w1) => if err.isSome then (err, w1) else Filter.RenameLoop source oldname newname rest w1

/-- `func (f *Filter) Rename(oldname, newname string) (err error)`. -/
def Filter.Rename (f : Filter File FileInfo Err σ) (oldname newname : String) (w : σ) :
    Option Err × σ :=
  Filter.RenameLoop f.source oldname newname f.chain w

/-- The loop and final statement of `Filter.Stat`. -/
def Filter.StatLoop (source : Fs File FileInfo Err σ) (name : String) :
    List (Fs File FileInfo Err σ) → σ → (Option FileInfo × Option Err) × σ
  | [], w => source.Stat name w
  | c :: rest, w =>
    match c.Stat name w with
    | ((fi, err), w1) => if err.isSome then ((fi, err), w1) else Filter.StatLoop source name rest w1

/-- `func (f *Filter) Stat(name string) (fi os.FileInfo, err error)`. -/
def Filter.Stat (f : Filter File FileInfo Err σ) (name : String) (w : σ) :
    (Option FileInfo × Option Err) × σ :=
  Filter.StatLoop f.source name f.chain w

/-- `func (f *Filter) Name() string`: `return f.source.Name()`. -/
def Filter.Name (f : Filter File FileInfo Err σ) (w : σ) : String × σ :=
  f.source.Name w

/-- The loop and final statement of `Filter.Chmod`. -/
def Filter.ChmodLoop (source : Fs File FileInfo Err σ) (name : String) (mode : FileMode) :
    List (Fs File FileInfo Err σ) → σ → Option Err × σ
  | [], w => source.Chmod name mode w
  | c :: rest, w =>
    match c.Chmod name mode w with
    | (err, w1) => if err.isSome then (err, w1) else Filter.ChmodLoop source name mode rest w1

/-- `func (f *Filter) Chmod(name string, mode os.FileMode) (err error)`. -/
def Filter.Chmod (f : Filter File FileInfo Err σ) (name : String) (mode : FileMode) (w : σ) :
    Option Err × σ :=
  Filter.ChmodLoop f.source name mode f.chain w

/-- The loop and final statement of `Filter.Chtimes`. -/
def Filter.ChtimesLoop (source : Fs File FileInfo Err σ) (name : String) (atime mtime : Time) :
    List (Fs File FileInfo Err σ) → σ → Option Err × σ
  | [], w => source.Chtimes name atime mtime w
  | c :: rest, w =>
    match c.Chtimes name atime mtime w with
    | (err, w1) =>
      if err.isSome then (err, w1) else Filter.ChtimesLoop source name atime mtime rest w1

/-- `func (f *Filter) Chtimes(name string, atime, mtime time.Time) (err error)`. -/
def Filter.Chtimes (f : Filter File FileInfo Err σ) (name : String) (atime mtime : Time)
    (w : σ) : Option Err × σ :=
  Filter.ChtimesLoop f.source name atime mtime f.chain w

/-! ## Uniform view of the eleven gated operations -/

/-- A call of one of the eleven gated operations, with its Go arguments in order. -/
inductive Call where
  | Create (name : String)
  | Mkdir (name : String) (perm : FileMode)
  | MkdirAll (path : String) (perm : FileMode)
  | Open (name : String)
  | OpenFile (name : String) (flag : Int) (perm : FileMode)
  | Remove (name : String)
  | RemoveAll (path : String)
  | Rename (oldname newname : String)
  | Stat (name : String)
  | Chmod (name : String) (mode : FileMode)
  | Chtimes (name : String) (atime mtime : Time)
  deriving DecidableEq, Repr

/-- The complete Go result of a gated operation: `(File, error)`, `(os.FileInfo, error)`
or `error` alone. -/
inductive Result (File FileInfo Err : Type) where
  | file (file : Option File) (err : Option Err)
  | info (fi : Option FileInfo) (err : Option Err)
  | status (err : Option Err)
  deriving DecidableEq, Repr

/-- The `error` component of a result. -/
def Result.err : Result File FileInfo Err → Option Err
  | .file _ e => e
  | .info _ e => e
  | .status e => e

/-- Whether the result carries a non-nil value (a `File` or an `os.FileInfo`). -/
def Result.hasValue : Result File FileInfo Err → Bool
  | .file v _ => v.isSome
  | .info v _ => v.isSome
  | .status _ => false

/-- Calling the method named by `call` on the capability `c`. -/
def Fs.invoke (c : Fs File FileInfo Err σ) : Call → σ → Result File FileInfo Err × σ
  | .Create name, w => match c.Create name w with | ((file, err), w1) => (.file file err, w1)
  | .Mkdir name perm, w => match c.Mkdir name perm w with | (err, w1) => (.status err, w1)
  | .MkdirAll path perm, w => match c.MkdirAll path perm w with | (err, w1) => (.status err, w1)
  | .Open name, w => match c.Open name w with | ((file, err), w1) => (.file file err, w1)
  | .OpenFile name flag perm, w =>
    match c.OpenFile name flag perm w with | ((file, err), w1) => (.file file err, w1)
  | .Remove name, w => match c.Remove name w with | (err, w1) => (.status err, w1)
  | .RemoveAll path, w => match c.RemoveAll path w with | (err, w1) => (.status err, w1)
  | .Rename oldname newname, w =>
    match c.Rename oldname newname w with | (err, w1) => (.status err, w1)
  | .Stat name, w => match c.Stat name w with | ((fi, err), w1) => (.info fi err, w1)
  | .Chmod name mode, w => match c.Chmod name mode w with | (err, w1) => (.status err, w1)
  | .Chtimes name atime mtime, w =>
    match c.Chtimes name atime mtime w with | (err, w1) => (.status err, w1)

/-- Calling the `Filter` method named by `call`. -/
def Filter.invoke (f : Filter File FileInfo Err σ) : Call → σ → Result File FileInfo Err × σ
  | .Create name, w => match f.Create name w with | ((file, err), w1) => (.file file err, w1)
  | .Mkdir name perm, w => match f.Mkdir name perm w with | (err, w1) => (.status err, w1)
  | .MkdirAll path perm, w => match f.MkdirAll path perm w with | (err, w1) => (.status err, w1)
  | .Open name, w => match f.Open name w with | ((file, err), w1) => (.file file err, w1)
  | .OpenFile name flag perm, w =>
    match f.OpenFile name flag perm w with | ((file, err), w1) => (.file file err, w1)
  | .Remove name, w => match f.Remove name w with | (err, w1) => (.status err, w1)
  | .RemoveAll path, w => match f.RemoveAll path w with | (err, w1) => (.status err, w1)
  | .Rename oldname newname, w =>
    match f.Rename oldname newname w with | (err, w1) => (.status err, w1)
  | .Stat name, w => match f.Stat name w with | ((fi, err), w1) => (.info fi err, w1)
  | .Chmod name mode, w => match f.Chmod name mode w with | (err, w1) => (.status err, w1)
  | .Chtimes name atime mtime, w =>
    match f.Chtimes name atime mtime w with | (err, w1) => (.status err, w1)

/-- The generic helper of the specification: evaluate the chain in order, stop at the
first non-nil error, otherwise fall back to the source. -/
def evalChain (call : Call) (source : Fs File FileInfo Err σ) :
    List (Fs File FileInfo Err σ) → σ → Result File FileInfo Err × σ
  | [], w => source.invoke call w
  | c :: rest, w =>
    match c.invoke call w with
    | (r, w1) => if r.err.isSome then (r, w1) else evalChain call source rest w1

/-! ## Call-recording instrumentation -/

/-- Whom a recorded invocation was made on: the filter at a chain position, or the source. -/
inductive Target where
  | filter (pos : Nat)
  | source
  deriving DecidableEq, Repr

/-- One recorded invocation: the capability it was made on, the operation with its
arguments, and what the capability returned. -/
inductive Event (File FileInfo Err : Type) where
  | op (target : Target) (call : Call) (result : Result File FileInfo Err)
  | name (target : Target) (result : String)
  deriving DecidableEq, Repr

/-- The capability an event was recorded on. -/
def Event.target : Event File FileInfo Err → Target
  | .op t _ _ => t
  | .name t _ => t

/-- The gated call of an event (`none` for a `Name` call). -/
def Event.call? : Event File FileInfo Err → Option Call
  | .op _ call _ => some call
  | .name _ _ => none

/-- The result of a gated call event (`none` for a `Name` call). -/
def Event.result? : Event File FileInfo Err → Option (Result File FileInfo Err)
  | .op _ _ r => some r
  | .name _ _ => none

/-- The error a recorded invocation returned (`nil` for `Name`, which returns no error). -/
def Event.err : Event File FileInfo Err → Option Err
  | .op _ _ r => r.err
  | .name _ _ => none

/-- An event recorded on a filter (not the source). -/
def Event.onFilter (e : Event File FileInfo Err) : Bool :=
  match e.target with
  | .filter _ => true
  | .source => false

/-- An event in which a filter returned a non-nil error. -/
def Event.isReject (e : Event File FileInfo Err) : Bool :=
  e.onFilter && e.err.isSome

/-- Call-count instrumentation: the capability `c` wrapped so that every method call is
forwarded to `c` unchanged and then appended, with what `c` returned, to a log kept
beside the heap. -/
def Fs.logged (t : Target) (c : Fs File FileInfo Err σ) :
    Fs File FileInfo Err (σ × List (Event File FileInfo Err)) where
  Create := fun name s =>
    match c.Create name s.1 with
    | ((file, err), w1) => ((file, err), (w1, s.2 ++ [.op t (.Create name) (.file file err)]))
  Mkdir := fun name perm s =>
    match c.Mkdir name perm s.1 with
    | (err, w1) => (err, (w1, s.2 ++ [.op t (.Mkdir name perm) (.status err)]))
  MkdirAll := fun path perm s =>
    match c.MkdirAll path perm s.1 with
    | (err, w1) => (err, (w1, s.2 ++ [.op t (.MkdirAll path perm) (.status err)]))
  Open := fun name s =>
    match c.Open name s.1 with
    | ((file, err), w1) => ((file, err), (w1, s.2 ++ [.op t (.Open name) (.file file err)]))
  OpenFile := fun name flag perm s =>
    match c.OpenFile name flag perm s.1 with
    | ((file, err), w1) =>
      ((file, err), (w1, s.2 ++ [.op t (.OpenFile name flag perm) (.file file err)]))
  Remove := fun name s =>
    match c.Remove name s.1 with
    | (err, w1) => (err, (w1, s.2 ++ [.op t (.Remove name) (.status err)]))
  RemoveAll := fun path s =>
    match c.RemoveAll path s.1 with
    | (err, w1) => (err, (w1, s.2 ++ [.op t (.RemoveAll path) (.status err)]))
  Rename := fun oldname newname s =>
    match c.Rename oldname newname s.1 with
    | (err, w1) => (err, (w1, s.2 ++ [.op t (.Rename oldname newname) (.status err)]))
  Stat := fun name s =>
    match c.Stat name s.1 with
    | ((fi, err), w1) => ((fi, err), (w1, s.2 ++ [.op t (.Stat name) (.info fi err)]))
  Name := fun s =>
    match c.Name s.1 with
    | (n, w1) => (n, (w1, s.2 ++ [.name t n]))
  Chmod := fun name mode s =>
    match c.Chmod name mode s.1 with
    | (err, w1) => (err, (w1, s.2 ++ [.op t (.Chmod name mode) (.status err)]))
  Chtimes := fun name atime mtime s =>
    match c.Chtimes name atime mtime s.1 with
    | (err, w1) => (err, (w1, s.2 ++ [.op t (.Chtimes name atime mtime) (.status err)]))

/-- The filters of a chain, each instrumented under its evaluation position, counted
from `k`. -/
def logChain : Nat → List (Fs File FileInfo Err σ) →
    List (Fs File FileInfo Err (σ × List (Event File FileInfo Err)))
  | _, [] => []
  | k, c :: rest => c.logged (.filter k) :: logChain (k + 1) rest

/-- The `Filter` with every filter instrumented under its chain position and the source
instrumented as the source. -/
def Filter.logged (f : Filter File FileInfo Err σ) :
    Filter File FileInfo Err (σ × List (Event File FileInfo Err)) :=
  { chain := logChain 0 f.chain, source := f.source.logged .source }

/-- The invocations a chain evaluation makes, in order, as the specification describes
them: each filter from position `k` on, up to and including the first that returns a
non-nil error, and the source if there is none. -/
def chainTrace (call : Call) (source : Fs File FileInfo Err σ) :
    Nat → List (Fs File FileInfo Err σ) → σ → List (Event File FileInfo Err)
  | _, [], w => [.op .source call (source.invoke call w).1]
  | k, c :: rest, w =>
    match c.invoke call w with
    | (r, w1) =>
      .op (.filter k) call r :: (if r.err.isSome then [] else chainTrace call source (k + 1) rest w1)

/-! ## The capabilities of the specification's scenarios -/

/-- Modelled from the spec: the heap of the scenarios of section 8, holding what the
capabilities of the scenarios own (they are not part of `filter.go`): the paths stored in
the writable in-memory source, and the calls `LoggingFilter` has recorded. -/
structure Heap where
  entries : List String
  recorded : List Call
  deriving DecidableEq, Repr

/-- Modelled from the spec: the fixed error with which `ReadOnlyFilter` rejects. -/
def errReadOnly : String := "read-only"

/-- Modelled from the spec: the error of the in-memory source for a missing path. -/
def errNotExist : String := "file does not exist"

/-- Modelled from the spec: the error of the in-memory source for a path already there. -/
def errExist : String := "file already exists"

/-- Modelled from the spec: the "writable in-memory filesystem" that is the source of the
scenarios (absent from `filter.go`).  A file handle and a file's metadata are the path.
Creating stores the path; opening, stat, chmod and chtimes need the path stored; remove
and rename need it stored and drop or replace it. -/
def MemFs : Fs String String String Heap where
  Create := fun name h =>
    ((some name, none), { h with entries := if name ∈ h.entries then h.entries else h.entries ++ [name] })
  Mkdir := fun name _ h =>
    if name ∈ h.entries then (some errExist, h) else (none, { h with entries := h.entries ++ [name] })
  MkdirAll := fun path _ h =>
    (none, { h with entries := if path ∈ h.entries then h.entries else h.entries ++ [path] })
  Open := fun name h =>
    if name ∈ h.entries then ((some name, none), h) else ((none, some errNotExist), h)
  OpenFile := fun name _ _ h =>
    if name ∈ h.entries then ((some name, none), h) else ((none, some errNotExist), h)
  Remove := fun name h =>
    if name ∈ h.entries then (none, { h with entries := h.entries.filter (fun p => p ≠ name) })
    else (some errNotExist, h)
  RemoveAll := fun path h =>
    (none, { h with entries := h.entries.filter (fun p => p ≠ path) })
  Rename := fun oldname newname h =>
    if oldname ∈ h.entries then
      (none, { h with entries := h.entries.map (fun p => if p = oldname then newname else p) })
    else (some errNotExist, h)
  Stat := fun name h =>
    if name ∈ h.entries then ((some name, none), h) else ((none, some errNotExist), h)
  Name := fun h => ("MemMapFS", h)
  Chmod := fun name _ h => if name ∈ h.entries then (none, h) else (some errNotExist, h)
  Chtimes := fun name _ _ h => if name ∈ h.entries then (none, h) else (some errNotExist, h)

/-- Modelled from the spec: `ReadOnlyFilter` of the scenarios (absent from `filter.go`):
it "rejects create, mkdir, mkdirAll, remove, removeAll, rename, chmod, chtimes with a
fixed read-only error and passes open/stat through"; a filter passes by returning a nil
error.  It touches no state. -/
def ReadOnlyFilter : Fs String String String Heap where
  Create := fun _ h => ((none, some errReadOnly), h)
  Mkdir := fun _ _ h => (some errReadOnly, h)
  MkdirAll := fun _ _ h => (some errReadOnly, h)
  Open := fun _ h => ((none, none), h)
  OpenFile := fun _ _ _ h => ((none, none), h)
  Remove := fun _ h => (some errReadOnly, h)
  RemoveAll := fun _ h => (some errReadOnly, h)
  Rename := fun _ _ h => (some errReadOnly, h)
  Stat := fun _ h => ((none, none), h)
  Name := fun h => ("ReadOnlyFilter", h)
  Chmod := fun _ _ h => (some errReadOnly, h)
  Chtimes := fun _ _ _ h => (some errReadOnly, h)

/-- Modelled from the spec: `LoggingFilter` of the scenarios (absent from `filter.go`):
it "never rejects, just records calls". -/
def LoggingFilter : Fs String String String Heap where
  Create := fun name h => ((none, none), { h with recorded := h.recorded ++ [.Create name] })
  Mkdir := fun name perm h => (none, { h with recorded := h.recorded ++ [.Mkdir name perm] })
  MkdirAll := fun path perm h =>
    (none, { h with recorded := h.recorded ++ [.MkdirAll path perm] })
  Open := fun name h => ((none, none), { h with recorded := h.recorded ++ [.Open name] })
  OpenFile := fun name flag perm h =>
    ((none, none), { h with recorded := h.recorded ++ [.OpenFile name flag perm] })
  Remove := fun name h => (none, { h with recorded := h.recorded ++ [.Remove name] })
  RemoveAll := fun path h => (none, { h with recorded := h.recorded ++ [.RemoveAll path] })
  Rename := fun oldname newname h =>
    (none, { h with recorded := h.recorded ++ [.Rename oldname newname] })
  Stat := fun name h => ((none, none), { h with recorded := h.recorded ++ [.Stat name] })
  Name := fun h => ("LoggingFilter", h)
  Chmod := fun name mode h => (none, { h with recorded := h.recorded ++ [.Chmod name mode] })
  Chtimes := fun name atime mtime h =>
    (none, { h with recorded := h.recorded ++ [.Chtimes name atime mtime] })

/-- A filter that rejects `Create` with `"denied"` and yet returns a non-nil file
handle with it, which Go's `(File, error)` result type allows; it passes everything else. -/
def HandleAndErrorFilter : Fs String String String Heap where
  Create := fun name h => ((some name, some "denied"), h)
  Mkdir := fun _ _ h => (none, h)
  MkdirAll := fun _ _ h => (none, h)
  Open := fun _ h => ((none, none), h)
  OpenFile := fun _ _ _ h => ((none, none), h)
  Remove := fun _ h => (none, h)
  RemoveAll := fun _ h => (none, h)
  Rename := fun _ _ h => (none, h)
  Stat := fun _ h => ((none, none), h)
  Name := fun h => ("HandleAndErrorFilter", h)
  Chmod := fun _ _ h => (none, h)
  Chtimes := fun _ _ _ h => (none, h)

/-- The scenario "LoggingFilter added first, ReadOnlyFilter added second", on the
in-memory source. -/
def loggingThenReadOnly : Filter String String String Heap :=
  ((NewFilter MemFs).AddFilter LoggingFilter).AddFilter ReadOnlyFilter

/-- The scenario "source = writable in-memory filesystem; add filter ReadOnlyFilter". -/
def readOnlyChain : Filter String String String Heap :=
  (NewFilter MemFs).AddFilter ReadOnlyFilter

/-- A heap in which the source stores `/x` and `/existing.txt` and nothing is recorded. -/
def heap0 : Heap := { entries := ["/x", "/existing.txt"], recorded := [] }

/-! ## The `Filter` as a filesystem, the generic helper, and the `Filter` in the heap -/

/-- A `*Filter` used as an `Fs` (`FilterFs` embeds `Fs`, and `NewFilter` takes any `Fs`):
each method of the capability is the `Filter` method of that name. -/
def Filter.toFs (f : Filter File FileInfo Err σ) : Fs File FileInfo Err σ where
  Create := f.Create
  Mkdir := f.Mkdir
  MkdirAll := f.MkdirAll
  Open := f.Open
  OpenFile := f.OpenFile
  Remove := f.Remove
  RemoveAll := f.RemoveAll
  Rename := f.Rename
  Stat := f.Stat
  Name := f.Name
  Chmod := f.Chmod
  Chtimes := f.Chtimes

/-- The generic helper the specification proposes, in its words "evaluate chain then
fallback to source", parameterized by the operation closure `op` (and by `failed`, which
reads the error out of the operation's result type): the filters are evaluated in order,
the first failure stops the iteration and is returned, otherwise the operation is
forwarded to the source. -/
def evalThenFallback {ρ : Type} (failed : ρ → Bool) (op : Fs File FileInfo Err σ → σ → ρ × σ)
    (source : Fs File FileInfo Err σ) : List (Fs File FileInfo Err σ) → σ → ρ × σ
  | [], w => op source w
  | c :: rest, w =>
    match op c w with
    | (r, w1) => if failed r then (r, w1) else evalThenFallback failed op source rest w1

/-- The heap after the filters of `pre` have each been invoked once, in order, each on
the heap the one before left, when every one of them returned a nil error; `none` when
one of them returned a non-nil error.  This says of an input, without any `Filter`
method, that "every filter before this position passes". -/
def passAll (call : Call) : List (Fs File FileInfo Err σ) → σ → Option σ
  | [], w => some w
  | c :: rest, w =>
    match c.invoke call w with
    | (r, w1) => if r.err.isSome then none else passAll call rest w1

/-- A reference to a capability object: what a Go interface value of type `Fs` holds. -/
abbrev Ref := Nat

/-- A `*Filter` that lives in the heap, so that a capability can hold it and call its
methods while one of its methods runs: how its fields `chain` and `source` are read from
the heap and how `chain` is written, with the laws of a field store.  The chain holds
references; the method code behind a reference is fixed. -/
structure Cell (σ : Type) where
  chain : σ → List Ref
  source : σ → Ref
  setChain : List Ref → σ → σ
  chain_setChain : ∀ l w, chain (setChain l w) = l
  source_setChain : ∀ l w, source (setChain l w) = source w

/-- The final statement `return f.source.X(...)` of a method of a heap-resident `Filter`:
the field `f.source` is read when the statement runs, and the method is called on it. -/
def Cell.sourceFs (cell : Cell σ) (obj : Ref → Fs File FileInfo Err σ) :
    Fs File FileInfo Err σ where
  Create := fun name w => (obj (cell.source w)).Create name w
  Mkdir := fun name perm w => (obj (cell.source w)).Mkdir name perm w
  MkdirAll := fun path perm w => (obj (cell.source w)).MkdirAll path perm w
  Open := fun name w => (obj (cell.source w)).Open name w
  OpenFile := fun name flag perm w => (obj (cell.source w)).OpenFile name flag perm w
  Remove := fun name w => (obj (cell.source w)).Remove name w
  RemoveAll := fun path w => (obj (cell.source w)).RemoveAll path w
  Rename := fun oldname newname w => (obj (cell.source w)).Rename oldname newname w
  Stat := fun name w => (obj (cell.source w)).Stat name w
  Name := fun w => (obj (cell.source w)).Name w
  Chmod := fun name mode w => (obj (cell.source w)).Chmod name mode w
  Chtimes := fun name atime mtime w => (obj (cell.source w)).Chtimes name atime mtime w

/-- What a method of a heap-resident `Filter` works on when it is entered on heap `w`:
`range f.chain` evaluates `f.chain` once, on entry, and ranges over that slice; the
source is read by the final statement. -/
def Cell.receiver (cell : Cell σ) (obj : Ref → Fs File FileInfo Err σ) (w : σ) :
    Filter File FileInfo Err σ :=
  { chain := (cell.chain w).map obj, source := cell.sourceFs obj }

/-- A gated method of a heap-resident `Filter`, called on heap `w`: the method of
`filter.go`, on the receiver read from the heap.  The fields after the call are read from
the heap the call leaves. -/
def Cell.invoke (cell : Cell σ) (obj : Ref → Fs File FileInfo Err σ) (call : Call) (w : σ) :
    Result File FileInfo Err × σ :=
  (cell.receiver obj w).invoke call w

/-- `Name` of a heap-resident `Filter`. -/
def Cell.Name (cell : Cell σ) (obj : Ref → Fs File FileInfo Err σ) (w : σ) : String × σ :=
  (cell.receiver obj w).Name w

/-- `AddFilter` of a heap-resident `Filter`: `c := []Fs{fs}`, the elements of `f.chain`
appended in range order, `f.chain = c`. -/
def Cell.AddFilter (cell : Cell σ) (fs : Ref) (w : σ) : σ :=
  cell.setChain ((cell.chain w).foldl (fun c ch => c ++ [ch]) [fs]) w

/-- A capability whose every gated method does `act` on the heap and returns nil values
and the error `err`, and whose `Name` is `label`. -/
def uniformFs (label : String) (err : Option Err) (act : σ → σ) : Fs File FileInfo Err σ where
  Create := fun _ w => ((none, err), act w)
  Mkdir := fun _ _ w => (err, act w)
  MkdirAll := fun _ _ w => (err, act w)
  Open := fun _ w => ((none, err), act w)
  OpenFile := fun _ _ _ w => ((none, err), act w)
  Remove := fun _ w => (err, act w)
  RemoveAll := fun _ w => (err, act w)
  Rename := fun _ _ w => (err, act w)
  Stat := fun _ w => ((none, err), act w)
  Name := fun w => (label, w)
  Chmod := fun _ _ w => (err, act w)
  Chtimes := fun _ _ _ w => (err, act w)

/-- A heap that holds nothing but the two fields of one `Filter`. -/
structure CellHeap where
  chain : List Ref
  source : Ref
  deriving DecidableEq, Repr

/-- The `Filter` stored in a `CellHeap`. -/
def theCell : Cell CellHeap where
  chain := fun h => h.chain
  source := fun h => h.source
  setChain := fun l h => { h with chain := l }
  chain_setChain := fun _ _ => rfl
  source_setChain := fun _ _ => rfl

/-- The objects of the re-entrancy example: reference 0 is a source that accepts
everything; reference 1 is a filter that holds the `Filter` and, on every gated call,
calls `AddFilter` on it with reference 2 and passes; every other reference is a filter
that rejects with the read-only error and touches nothing. -/
def cellObj : Ref → Fs String String String CellHeap
  | 0 => uniformFs "source" none id
  | 1 => uniformFs "reentrant" none (theCell.AddFilter 2)
  | _ => uniformFs "read-only" (some errReadOnly) id

/-- A heap whose `Filter` has the re-entrant filter as its only filter. -/
def cellHeapReentrant : CellHeap := { chain := [1], source := 0 }

/-- A heap whose `Filter` has the read-only filter as its only filter. -/
def cellHeapReadOnly : CellHeap := { chain := [2], source := 0 }

/-- The target one chain position further down; the source stays the source. -/
def Target.shift : Target → Target
  | .filter pos => .filter (pos + 1)
  | .source => .source

/-- An event with its target moved one chain position further down. -/
def Event.shift : Event File FileInfo Err → Event File FileInfo Err
  | .op t call r => .op t.shift call r
  | .name t s => .name t.shift s

/-- A transparent filter: every operation returns nil values and a nil error and
touches no state. -/
def PassFilter : Fs String String String Heap where
  Create := fun _ h => ((none, none), h)
  Mkdir := fun _ _ h => (none, h)
  MkdirAll := fun _ _ h => (none, h)
  Open := fun _ h => ((none, none), h)
  OpenFile := fun _ _ _ h => ((none, none), h)
  Remove := fun _ h => (none, h)
  RemoveAll := fun _ h => (none, h)
  Rename := fun _ _ h => (none, h)
  Stat := fun _ h => ((none, none), h)
  Name := fun h => ("PassFilter", h)
  Chmod := fun _ _ h => (none, h)
  Chtimes := fun _ _ _ h => (none, h)

/-- The scenario "a side-effecting filter that passes, evaluated before a filter that
rejects": `ReadOnlyFilter` added first, `LoggingFilter` added second. -/
def readOnlyThenLogging : Filter String String String Heap :=
  ((NewFilter MemFs).AddFilter ReadOnlyFilter).AddFilter LoggingFilter

/-! ## Basic lemmas -/

theorem foldl_append_singleton {α : Type} (l init : List α) :
    l.foldl (fun c ch => c ++ [ch]) init = init ++ l := by
  induction l generalizing init with
  | nil => simp
  | cons a t ih => simp [ih]

theorem AddFilter_chain (f : Filter File FileInfo Err σ) (x : Fs File FileInfo Err σ) :
    (f.AddFilter x).chain = x :: f.chain := by
  simp [Filter.AddFilter, foldl_append_singleton]

theorem AddFilter_source (f : Filter File FileInfo Err σ) (x : Fs File FileInfo Err σ) :
    (f.AddFilter x).source = f.source := rfl

theorem CreateLoop_eq (s : Fs File FileInfo Err σ) (name : String)
    (l : List (Fs File FileInfo Err σ)) (w : σ) :
    (match Filter.CreateLoop s name l w with | ((file, err), w1) => (Result.file file err, w1))
      = evalChain (.Create name) s l w := by
  induction l generalizing w with
  | nil => rfl
  | cons c t ih =>
    simp only [Filter.CreateLoop, evalChain, Fs.invoke, Result.err]
    split <;> simp_all

theorem MkdirLoop_eq (s : Fs File FileInfo Err σ) (name : String) (perm : FileMode)
    (l : List (Fs File FileInfo Err σ)) (w : σ) :
    (match Filter.MkdirLoop s name perm l w with | (err, w1) => (Result.status err, w1))
      = evalChain (.Mkdir name perm) s l w := by
  induction l generalizing w with
  | nil => rfl
  | cons c t ih =>
    simp only [Filter.MkdirLoop, evalChain, Fs.invoke, Result.err]
    split <;> simp_all

theorem MkdirAllLoop_eq (s : Fs File FileInfo Err σ) (path : String) (perm : FileMode)
    (l : List (Fs File FileInfo Err σ)) (w : σ) :
    (match Filter.MkdirAllLoop s path perm l w with | (err, w1) => (Result.status err, w1))
      = evalChain (.MkdirAll path perm) s l w := by
  induction l generalizing w with
  | nil => rfl
  | cons c t ih =>
    simp only [Filter.MkdirAllLoop, evalChain, Fs.invoke, Result.err]
    split <;> simp_all

theorem OpenLoop_eq (s : Fs File FileInfo Err σ) (name : String)
    (l : List (Fs File FileInfo Err σ)) (w : σ) :
    (match Filter.OpenLoop s name l w with | ((file, err), w1) => (Result.file file err, w1))
      = evalChain (.Open name) s l w := by
  induction l generalizing w with
  | nil => rfl
  | cons c t ih =>
    simp only [Filter.OpenLoop, evalChain, Fs.invoke, Result.err]
    split <;> simp_all

theorem OpenFileLoop_eq (s : Fs File FileInfo Err σ) (name : String) (flag : Int) (perm : FileMode)
    (l : List (Fs File FileInfo Err σ)) (w : σ) :
    (match Filter.OpenFileLoop s name flag perm l w with | ((file, err), w1) => (Result.file file err, w1))
      = evalChain (.OpenFile name flag perm) s l w := by
  induction l generalizing w with
  | nil => rfl
  | cons c t ih =>
    simp only [Filter.OpenFileLoop, evalChain, Fs.invoke, Result.err]
    split <;> simp_all

theorem RemoveLoop_eq (s : Fs File FileInfo Err σ) (name : String)
    (l : List (Fs File FileInfo Err σ)) (w : σ) :
    (match Filter.RemoveLoop s name l w with | (err, w1) => (Result.status err, w1))
      = evalChain (.Remove name) s l w := by
  induction l generalizing w with
  | nil => rfl
  | cons c t ih =>
    simp only [Filter.RemoveLoop, evalChain, Fs.invoke, Result.err]
    split <;> simp_all

theorem RemoveAllLoop_eq (s : Fs File FileInfo Err σ) (path : String)
    (l : List (Fs File FileInfo Err σ)) (w : σ) :
    (match Filter.RemoveAllLoop s path l w with | (err, w1) => (Result.status err, w1))
      = evalChain (.RemoveAll path) s l w := by
  induction l generalizing w with
  | nil => rfl
  | cons c t ih =>
    simp only [Filter.RemoveAllLoop, evalChain, Fs.invoke, Result.err]
    split <;> simp_all

theorem RenameLoop_eq (s : Fs File FileInfo Err σ) (oldname newname : String)
    (l : List (Fs File FileInfo Err σ)) (w : σ) :
    (match Filter.RenameLoop s oldname newname l w with | (err, w1) => (Result.status err, w1))
      = evalChain (.Rename oldname newname) s l w := by
  induction l generalizing w with
  | nil => rfl
  | cons c t ih =>
    simp only [Filter.RenameLoop, evalChain, Fs.invoke, Result.err]
    split <;> simp_all

theorem StatLoop_eq (s : Fs File FileInfo Err σ) (name : String)
    (l : List (Fs File FileInfo Err σ)) (w : σ) :
    (match Filter.StatLoop s name l w with | ((fi, err), w1) => (Result.info fi err, w1))
      = evalChain (.Stat name) s l w := by
  induction l generalizing w with
  | nil => rfl
  | cons c t ih =>
    simp only [Filter.StatLoop, evalChain, Fs.invoke, Result.err]
    split <;> simp_all

theorem ChmodLoop_eq (s : Fs File FileInfo Err σ) (name : String) (mode : FileMode)
    (l : List (Fs File FileInfo Err σ)) (w : σ) :
    (match Filter.ChmodLoop s name mode l w with | (err, w1) => (Result.status err, w1))
      = evalChain (.Chmod name mode) s l w := by
  induction l generalizing w with
  | nil => rfl
  | cons c t ih =>
    simp only [Filter.ChmodLoop, evalChain, Fs.invoke, Result.err]
    split <;> simp_all

theorem ChtimesLoop_eq (s : Fs File FileInfo Err σ) (name : String) (atime mtime : Time)
    (l : List (Fs File FileInfo Err σ)) (w : σ) :
    (match Filter.ChtimesLoop s name atime mtime l w with | (err, w1) => (Result.status err, w1))
      = evalChain (.Chtimes name atime mtime) s l w := by
  induction l generalizing w with
  | nil => rfl
  | cons c t ih =>
    simp only [Filter.ChtimesLoop, evalChain, Fs.invoke, Result.err]
    split <;> simp_all

/-- Every gated `Filter` method is the generic chain evaluation at that method. -/
theorem invoke_eq_evalChain (f : Filter File FileInfo Err σ) (call : Call) (w : σ) :
    f.invoke call w = evalChain call f.source f.chain w := by
  cases call with
  | Create name => exact CreateLoop_eq f.source name f.chain w
  | Mkdir name perm => exact MkdirLoop_eq f.source name perm f.chain w
  | MkdirAll path perm => exact MkdirAllLoop_eq f.source path perm f.chain w
  | Open name => exact OpenLoop_eq f.source name f.chain w
  | OpenFile name flag perm => exact OpenFileLoop_eq f.source name flag perm f.chain w
  | Remove name => exact RemoveLoop_eq f.source name f.chain w
  | RemoveAll path => exact RemoveAllLoop_eq f.source path f.chain w
  | Rename oldname newname => exact RenameLoop_eq f.source oldname newname f.chain w
  | Stat name => exact StatLoop_eq f.source name f.chain w
  | Chmod name mode => exact ChmodLoop_eq f.source name mode f.chain w
  | Chtimes name atime mtime => exact ChtimesLoop_eq f.source name atime mtime f.chain w

/-- An instrumented capability returns what the capability returns, leaves the heap as
the capability leaves it, and appends exactly one event. -/
theorem logged_invoke (t : Target) (c : Fs File FileInfo Err σ) (call : Call) (w : σ)
    (l : List (Event File FileInfo Err)) :
    (c.logged t).invoke call (w, l)
      = ((c.invoke call w).1, ((c.invoke call w).2, l ++ [.op t call (c.invoke call w).1])) := by
  cases call <;> rfl

/-- Chain evaluation over instrumented capabilities: the result and heap of the plain
evaluation, and the log extended by `chainTrace`. -/
theorem evalChain_logged (call : Call) (s : Fs File FileInfo Err σ)
    (fs : List (Fs File FileInfo Err σ)) (k : Nat) (w : σ)
    (l : List (Event File FileInfo Err)) :
    evalChain call (s.logged .source) (logChain k fs) (w, l)
      = ((evalChain call s fs w).1,
          ((evalChain call s fs w).2, l ++ chainTrace call s k fs w)) := by
  induction fs generalizing k w l with
  | nil => simp [evalChain, logChain, chainTrace, logged_invoke]
  | cons c t ih =>
    simp only [evalChain, logChain, chainTrace, logged_invoke]
    split <;> simp_all

/-- The instrumented `Filter`, run from an empty log. -/
theorem logged_run (f : Filter File FileInfo Err σ) (call : Call) (w : σ) :
    f.logged.invoke call (w, [])
      = ((f.invoke call w).1, ((f.invoke call w).2, chainTrace call f.source 0 f.chain w)) := by
  rw [invoke_eq_evalChain, invoke_eq_evalChain]
  simp [Filter.logged, evalChain_logged]

/-- The shape of every chain evaluation's invocations: a block of filters at consecutive
positions that all returned a nil error, followed either by one more filter that returned
a non-nil error or by the source; the last invocation's result is the evaluation's. -/
theorem chainTrace_shape (call : Call) (s : Fs File FileInfo Err σ)
    (fs : List (Fs File FileInfo Err σ)) (k : Nat) (w : σ) :
    ∃ (ps : List (Event File FileInfo Err)) (n : Nat) (t : Target),
      chainTrace call s k fs w = ps ++ [.op t call (evalChain call s fs w).1]
      ∧ ps.map Event.target = (List.range' k n).map Target.filter
      ∧ (∀ e ∈ ps, e.err = none ∧ e.call? = some call)
      ∧ ((t = .filter (k + n) ∧ n < fs.length ∧ (evalChain call s fs w).1.err.isSome = true)
          ∨ (t = .source ∧ n = fs.length)) := by
  induction fs generalizing k w with
  | nil =>
    exact ⟨[], 0, .source, by simp [chainTrace, evalChain], by simp, by simp, Or.inr ⟨rfl, rfl⟩⟩
  | cons c rest ih =>
    by_cases hr : (c.invoke call w).1.err.isSome = true
    · refine ⟨[], 0, .filter k, ?_, by simp, by simp, Or.inl ⟨by simp, by simp, ?_⟩⟩
      · simp [chainTrace, evalChain, hr]
      · simp [evalChain, hr]
    · obtain ⟨ps, n, t, h1, h2, h3, h4⟩ := ih (k + 1) (c.invoke call w).2
      refine ⟨.op (.filter k) call (c.invoke call w).1 :: ps, n + 1, t, ?_, ?_, ?_, ?_⟩
      · simp [chainTrace, evalChain, hr, h1]
      · simp [List.range'_succ, h2, Event.target]
      · intro e he
        rcases List.mem_cons.1 he with rfl | he
        · simpa [Event.err, Event.call?] using hr
        · exact h3 e he
      · rcases h4 with ⟨ht, hn, he⟩ | ⟨ht, hn⟩
        · refine Or.inl ⟨?_, by simpa using hn, ?_⟩
          · rw [ht]; congr 1; omega
          · simpa [evalChain, hr] using he
        · exact Or.inr ⟨ht, by simp [hn]⟩

theorem isReject_of_err_none (e : Event File FileInfo Err) (h : e.err = none) :
    e.isReject = false := by
  simp [Event.isReject, h]

/-- When some recorded invocation is a rejection by a filter, the first such is the last
invocation, at a position `k + n` inside the chain, its result is the evaluation's, and
the invocations are exactly the filters at positions `k` to `k + n`. -/
theorem reject_found (call : Call) (s : Fs File FileInfo Err σ)
    (fs : List (Fs File FileInfo Err σ)) (k : Nat) (w : σ) (e : Event File FileInfo Err)
    (h : (chainTrace call s k fs w).find? Event.isReject = some e) :
    ∃ n, n < fs.length ∧ e = .op (.filter (k + n)) call (evalChain call s fs w).1
      ∧ (chainTrace call s k fs w).map Event.target = (List.range' k (n + 1)).map Target.filter
      ∧ (∀ e1 ∈ chainTrace call s k fs w, e1.call? = some call) := by
  obtain ⟨ps, n, t, h1, h2, h3, h4⟩ := chainTrace_shape call s fs k w
  have hps : ps.find? Event.isReject = none := by
    rw [List.find?_eq_none]
    intro x hx
    simp [isReject_of_err_none x (h3 x hx).1]
  rw [h1, List.find?_append, hps] at h
  have hcalls : ∀ e1 ∈ ps ++ [Event.op t call (evalChain call s fs w).1], e1.call? = some call := by
    intro e1 he1
    rcases List.mem_append.1 he1 with he1 | he1
    · exact (h3 e1 he1).2
    · simp at he1; subst he1; rfl
  rcases h4 with ⟨ht, hn, _⟩ | ⟨ht, _⟩
  · subst ht
    refine ⟨n, hn, ?_, ?_, ?_⟩
    · simp [List.find?] at h
      split at h <;> simp_all
    · rw [h1]
      simp [h2, List.range'_concat, Event.target]
    · rw [h1]; exact hcalls
  · subst ht
    simp [List.find?, Event.isReject, Event.onFilter, Event.target] at h

/-- When no recorded invocation is a rejection by a filter, the invocations are every
filter of the chain in order and then the source, whose result is the evaluation's. -/
theorem no_reject (call : Call) (s : Fs File FileInfo Err σ)
    (fs : List (Fs File FileInfo Err σ)) (k : Nat) (w : σ)
    (h : ∀ e ∈ chainTrace call s k fs w, e.isReject = false) :
    (chainTrace call s k fs w).map Event.target
        = (List.range' k fs.length).map Target.filter ++ [Target.source]
      ∧ (chainTrace call s k fs w).getLast? = some (.op .source call (evalChain call s fs w).1)
      ∧ (∀ e1 ∈ chainTrace call s k fs w, e1.call? = some call) := by
  obtain ⟨ps, n, t, h1, h2, h3, h4⟩ := chainTrace_shape call s fs k w
  have hcalls : ∀ e1 ∈ ps ++ [Event.op t call (evalChain call s fs w).1], e1.call? = some call := by
    intro e1 he1
    rcases List.mem_append.1 he1 with he1 | he1
    · exact (h3 e1 he1).2
    · simp at he1; subst he1; rfl
  rcases h4 with ⟨ht, _, he⟩ | ⟨ht, hn⟩
  · exfalso
    have := h (.op t call (evalChain call s fs w).1) (by rw [h1]; simp)
    subst ht
    simp [Event.isReject, Event.onFilter, Event.target, Event.err, he] at this
  · subst ht; subst hn
    refine ⟨?_, ?_, ?_⟩
    · rw [h1]; simp [h2, Event.target]
    · rw [h1]; simp
    · rw [h1]; exact hcalls

theorem count_filter_range (j n : Nat) :
    ((List.range n).map Target.filter).count (.filter j) = if j < n then 1 else 0 := by
  induction n with
  | zero => simp
  | succ n ih =>
    rw [List.range_succ, List.map_append, List.count_append, ih]
    by_cases h1 : j < n
    · have h2 : n ≠ j := by omega
      have h3 : j < n + 1 := by omega
      simp [h1, h2, h3, List.count_singleton]
    · by_cases h2 : n = j
      · subst h2; simp [List.count_singleton]
      · have h3 : ¬ j < n + 1 := by omega
        simp [h1, h2, h3, List.count_singleton]

theorem count_source_range (n : Nat) :
    ((List.range n).map Target.filter).count .source = 0 := by
  rw [List.count_eq_zero]
  simp

/-- A chain evaluation that does not invoke the source leaves unchanged every view of
the heap that no filter of the chain changes. -/
theorem view_preserved {α : Type} (view : σ → α) (call : Call) (s : Fs File FileInfo Err σ)
    (fs : List (Fs File FileInfo Err σ)) (k : Nat) (w : σ)
    (hpres : ∀ c ∈ fs, ∀ w1, view (c.invoke call w1).2 = view w1)
    (hsrc : ∀ e ∈ chainTrace call s k fs w, e.target ≠ .source) :
    view (evalChain call s fs w).2 = view w := by
  induction fs generalizing k w with
  | nil =>
    exfalso
    exact hsrc (.op .source call (s.invoke call w).1) (by simp [chainTrace]) rfl
  | cons c rest ih =>
    have hc := hpres c (by simp) w
    by_cases hr : (c.invoke call w).1.err.isSome = true
    · simpa [evalChain, hr] using hc
    · have hrest : ∀ e ∈ chainTrace call s (k + 1) rest (c.invoke call w).2,
          e.target ≠ .source := by
        intro e he
        apply hsrc e
        simp [chainTrace, hr, he]
      have := ih (k + 1) (c.invoke call w).2
        (fun c1 hc1 => hpres c1 (List.mem_cons_of_mem _ hc1)) hrest
      simp only [evalChain, hr]
      simpa [hc] using this

/-- A `Filter` used as a capability answers a call as the `Filter` does. -/
theorem toFs_invoke (g : Filter File FileInfo Err σ) (call : Call) (w : σ) :
    g.toFs.invoke call w = g.invoke call w := by
  cases call <;> rfl

/-- Evaluating a chain whose source is a `Filter` is evaluating the two chains one after
the other. -/
theorem evalChain_nested (call : Call) (s : Fs File FileInfo Err σ)
    (A B : List (Fs File FileInfo Err σ)) (w : σ) :
    evalChain call (Filter.toFs { chain := B, source := s }) A w
      = evalChain call s (A ++ B) w := by
  induction A generalizing w with
  | nil => simp [evalChain, toFs_invoke, invoke_eq_evalChain]
  | cons c t ih => simp [evalChain, ih]

theorem logChain_append (k : Nat) (A B : List (Fs File FileInfo Err σ)) :
    logChain k (A ++ B) = logChain k A ++ logChain (k + A.length) B := by
  induction A generalizing k with
  | nil => simp [logChain]
  | cons c t ih =>
    have h : k + 1 + t.length = k + (t.length + 1) := by omega
    simp [logChain, ih, h]

/-- Counting chain positions from one further down shifts every recorded target and
changes nothing else. -/
theorem chainTrace_shift (call : Call) (s : Fs File FileInfo Err σ)
    (fs : List (Fs File FileInfo Err σ)) (k : Nat) (w : σ) :
    chainTrace call s (k + 1) fs w = (chainTrace call s k fs w).map Event.shift := by
  induction fs generalizing k w with
  | nil => simp [chainTrace, Event.shift, Target.shift]
  | cons c t ih =>
    simp only [chainTrace, List.map_cons, Event.shift, Target.shift]
    split <;> simp [ih]

theorem CreateLoop_generic (s : Fs File FileInfo Err σ) (name : String)
    (l : List (Fs File FileInfo Err σ)) (w : σ) :
    Filter.CreateLoop s name l w
      = evalThenFallback (fun r => r.2.isSome) (fun c => c.Create name) s l w := by
  induction l generalizing w with
  | nil => rfl
  | cons c t ih => simp only [Filter.CreateLoop, evalThenFallback, ih]

theorem MkdirLoop_generic (s : Fs File FileInfo Err σ) (name : String) (perm : FileMode)
    (l : List (Fs File FileInfo Err σ)) (w : σ) :
    Filter.MkdirLoop s name perm l w
      = evalThenFallback (fun r => r.isSome) (fun c => c.Mkdir name perm) s l w := by
  induction l generalizing w with
  | nil => rfl
  | cons c t ih => simp only [Filter.MkdirLoop, evalThenFallback, ih]

theorem MkdirAllLoop_generic (s : Fs File FileInfo Err σ) (path : String) (perm : FileMode)
    (l : List (Fs File FileInfo Err σ)) (w : σ) :
    Filter.MkdirAllLoop s path perm l w
      = evalThenFallback (fun r => r.isSome) (fun c => c.MkdirAll path perm) s l w := by
  induction l generalizing w with
  | nil => rfl
  | cons c t ih => simp only [Filter.MkdirAllLoop, evalThenFallback, ih]

theorem OpenLoop_generic (s : Fs File FileInfo Err σ) (name : String)
    (l : List (Fs File FileInfo Err σ)) (w : σ) :
    Filter.OpenLoop s name l w
      = evalThenFallback (fun r => r.2.isSome) (fun c => c.Open name) s l w := by
  induction l generalizing w with
  | nil => rfl
  | cons c t ih => simp only [Filter.OpenLoop, evalThenFallback, ih]

theorem OpenFileLoop_generic (s : Fs File FileInfo Err σ) (name : String) (flag : Int) (perm : FileMode)
    (l : List (Fs File FileInfo Err σ)) (w : σ) :
    Filter.OpenFileLoop s name flag perm l w
      = evalThenFallback (fun r => r.2.isSome) (fun c => c.OpenFile name flag perm) s l w := by
  induction l generalizing w with
  | nil => rfl
  | cons c t ih => simp only [Filter.OpenFileLoop, evalThenFallback, ih]

theorem RemoveLoop_generic (s : Fs File FileInfo Err σ) (name : String)
    (l : List (Fs File FileInfo Err σ)) (w : σ) :
    Filter.RemoveLoop s name l w
      = evalThenFallback (fun r => r.isSome) (fun c => c.Remove name) s l w := by
  induction l generalizing w with
  | nil => rfl
  | cons c t ih => simp only [Filter.RemoveLoop, evalThenFallback, ih]

theorem RemoveAllLoop_generic (s : Fs File FileInfo Err σ) (path : String)
    (l : List (Fs File FileInfo Err σ)) (w : σ) :
    Filter.RemoveAllLoop s path l w
      = evalThenFallback (fun r => r.isSome) (fun c => c.RemoveAll path) s l w := by
  induction l generalizing w with
  | nil => rfl
  | cons c t ih => simp only [Filter.RemoveAllLoop, evalThenFallback, ih]

theorem RenameLoop_generic (s : Fs File FileInfo Err σ) (oldname newname : String)
    (l : List (Fs File FileInfo Err σ)) (w : σ) :
    Filter.RenameLoop s oldname newname l w
      = evalThenFallback (fun r => r.isSome) (fun c => c.Rename oldname newname) s l w := by
  induction l generalizing w with
  | nil => rfl
  | cons c t ih => simp only [Filter.RenameLoop, evalThenFallback, ih]

theorem StatLoop_generic (s : Fs File FileInfo Err σ) (name : String)
    (l : List (Fs File FileInfo Err σ)) (w : σ) :
    Filter.StatLoop s name l w
      = evalThenFallback (fun r => r.2.isSome) (fun c => c.Stat name) s l w := by
  induction l generalizing w with
  | nil => rfl
  | cons c t ih => simp only [Filter.StatLoop, evalThenFallback, ih]

theorem ChmodLoop_generic (s : Fs File FileInfo Err σ) (name : String) (mode : FileMode)
    (l : List (Fs File FileInfo Err σ)) (w : σ) :
    Filter.ChmodLoop s name mode l w
      = evalThenFallback (fun r => r.isSome) (fun c => c.Chmod name mode) s l w := by
  induction l generalizing w with
  | nil => rfl
  | cons c t ih => simp only [Filter.ChmodLoop, evalThenFallback, ih]

theorem ChtimesLoop_generic (s : Fs File FileInfo Err σ) (name : String) (atime mtime : Time)
    (l : List (Fs File FileInfo Err σ)) (w : σ) :
    Filter.ChtimesLoop s name atime mtime l w
      = evalThenFallback (fun r => r.isSome) (fun c => c.Chtimes name atime mtime) s l w := by
  induction l generalizing w with
  | nil => rfl
  | cons c t ih => simp only [Filter.ChtimesLoop, evalThenFallback, ih]

/-- When the filters of `pre` pass one after the other and the next filter `c` rejects,
the chain evaluation returns what `c` returned and leaves the heap as `c` left it, and
the first recorded rejection is `c`'s invocation at position `pre.length`. -/
theorem passAll_then_reject (call : Call) (s : Fs File FileInfo Err σ)
    (pre : List (Fs File FileInfo Err σ)) (c : Fs File FileInfo Err σ)
    (post : List (Fs File FileInfo Err σ)) (k : Nat) (w w0 : σ)
    (hpre : passAll call pre w = some w0) (hrej : (c.invoke call w0).1.err.isSome = true) :
    evalChain call s (pre ++ c :: post) w = c.invoke call w0
      ∧ (chainTrace call s k (pre ++ c :: post) w).find? Event.isReject
          = some (.op (.filter (k + pre.length)) call (c.invoke call w0).1) := by
  induction pre generalizing k w with
  | nil =>
    simp only [passAll, Option.some.injEq] at hpre
    subst hpre
    have h1 : evalChain call s (c :: post) w = c.invoke call w := by
      simp only [evalChain, hrej, if_true]
    have h2 : chainTrace call s k (c :: post) w = [.op (.filter k) call (c.invoke call w).1] := by
      simp only [chainTrace, hrej, if_true]
    have h3 : Event.isReject (Event.op (.filter k) call (c.invoke call w).1) = true := by
      simp only [Event.isReject, Event.onFilter, Event.target, Event.err, hrej, Bool.and_self]
    refine ⟨h1, ?_⟩
    rw [List.nil_append, h2, List.find?_cons_of_pos _ h3]
    rfl
  | cons a t ih =>
    by_cases ha : (a.invoke call w).1.err.isSome = true
    · simp [passAll, ha] at hpre
    · have hpre2 : passAll call t (a.invoke call w).2 = some w0 := by
        simpa [passAll, ha] using hpre
      obtain ⟨h1, h2⟩ := ih (k + 1) (a.invoke call w).2 hpre2
      have hk : k + 1 + t.length = k + (t.length + 1) := by omega
      refine ⟨?_, ?_⟩
      · simpa [evalChain, ha] using h1
      · simp only [List.cons_append, chainTrace, ha, List.length_cons]
        rw [List.find?_cons_of_neg]
        · simpa [hk] using h2
        · simpa [Event.isReject, Event.onFilter, Event.target, Event.err] using ha

/-- A chain evaluation leaves unchanged every view of the heap that no filter of the
chain changes and that the source does not change when called on a heap with that view. -/
theorem view_kept {α : Type} (view : σ → α) (call : Call) (s : Fs File FileInfo Err σ)
    (fs : List (Fs File FileInfo Err σ)) (w : σ)
    (hfs : ∀ c ∈ fs, ∀ w1, view (c.invoke call w1).2 = view w1)
    (hs : ∀ w1, view w1 = view w → view (s.invoke call w1).2 = view w1) :
    view (evalChain call s fs w).2 = view w := by
  induction fs generalizing w with
  | nil => simpa [evalChain] using hs w rfl
  | cons c rest ih =>
    have hc := hfs c (by simp) w
    by_cases hr : (c.invoke call w).1.err.isSome = true
    · simpa [evalChain, hr] using hc
    · have := ih (c.invoke call w).2 (fun c1 hc1 => hfs c1 (List.mem_cons_of_mem _ hc1))
        (fun w1 hw1 => hs w1 (hw1.trans hc))
      simp only [evalChain, hr]
      simpa [hc] using this

/-- The final statement of a heap-resident `Filter` calls the method on the capability
that `f.source` refers to at that moment. -/
theorem sourceFs_invoke (cell : Cell σ) (obj : Ref → Fs File FileInfo Err σ) (call : Call)
    (w : σ) : (cell.sourceFs obj).invoke call w = (obj (cell.source w)).invoke call w := by
  cases call <;> rfl

/-! ## The claims -/

/-- C1: for every gated operation, chain and argument, when some filter of the chain
returns a non-nil error on being invoked (the filters `pre` before it having each
returned a nil error, one after the other), the `Filter` method returns the complete
result, value and error, that this first rejecting filter `c` returned, unaltered, and
leaves the heap as `c` left it; the instrumented run returns the same result, and its
first recorded rejection is that invocation of `c`. -/
theorem first_rejection_is_the_result (f : Filter File FileInfo Err σ) (call : Call)
    (pre : List (Fs File FileInfo Err σ)) (c : Fs File FileInfo Err σ)
    (post : List (Fs File FileInfo Err σ)) (w w0 : σ)
    (hc : f.chain = pre ++ c :: post)
    (hpre : passAll call pre w = some w0)
    (hrej : (c.invoke call w0).1.err.isSome = true) :
    f.invoke call w = c.invoke call w0
      ∧ (f.invoke call w).1.err = (c.invoke call w0).1.err
      ∧ (f.logged.invoke call (w, [])).1 = (c.invoke call w0).1
      ∧ (f.logged.invoke call (w, [])).2.2.find? Event.isReject
          = some (.op (.filter pre.length) call (c.invoke call w0).1) := by
  obtain ⟨h1, h2⟩ := passAll_then_reject call f.source pre c post 0 w w0 hpre hrej
  have he : f.invoke call w = c.invoke call w0 := by
    rw [invoke_eq_evalChain, hc]; exact h1
  refine ⟨he, by rw [he], ?_, ?_⟩
  · rw [logged_run, he]
  · rw [logged_run, hc]
    simpa using h2

/-- Witness of C1: `LoggingFilter` passes, then a filter rejects `Create` with a non-nil
handle beside its error; the `Filter` returns that handle and that error. -/
theorem first_rejection_is_the_result_witness :
    passAll (.Create "/a.txt") [LoggingFilter] heap0
        = some { entries := ["/x", "/existing.txt"], recorded := [.Create "/a.txt"] }
      ∧ HandleAndErrorFilter.invoke (.Create "/a.txt")
          { entries := ["/x", "/existing.txt"], recorded := [.Create "/a.txt"] }
        = (.file (some "/a.txt") (some "denied"),
            { entries := ["/x", "/existing.txt"], recorded := [.Create "/a.txt"] })
      ∧ (((NewFilter MemFs).AddFilter HandleAndErrorFilter).AddFilter LoggingFilter).invoke
          (.Create "/a.txt") heap0
        = HandleAndErrorFilter.invoke (.Create "/a.txt")
            { entries := ["/x", "/existing.txt"], recorded := [.Create "/a.txt"] } :=
  ⟨by decide, by decide,
    (first_rejection_is_the_result
      (((NewFilter MemFs).AddFilter HandleAndErrorFilter).AddFilter LoggingFilter)
      (.Create "/a.txt") [LoggingFilter] HandleAndErrorFilter [] heap0
      { entries := ["/x", "/existing.txt"], recorded := [.Create "/a.txt"] }
      (by simp [AddFilter_chain, NewFilter]) (by decide) (by decide)).1⟩

/-- C2: for every gated operation and every chain in which the filter at evaluation
position `i` is the first to return a non-nil error (the `i` filters `pre` before it
each return a nil error, one after the other, and the filter `c` at position `i`
rejects), the invocations made are exactly the filters at positions `0, ..., i`, once
each and in that order, each with the caller's call, the last of them being `c`'s; no
filter after position `i` is invoked and the source is not invoked.  In particular, with
`LoggingFilter` added first and `ReadOnlyFilter` added second, `Remove` invokes
`ReadOnlyFilter` (position 0) and does not invoke `LoggingFilter`. -/
theorem short_circuit_invocations :
    (∀ {File FileInfo Err σ : Type} (f : Filter File FileInfo Err σ) (call : Call)
        (pre : List (Fs File FileInfo Err σ)) (c : Fs File FileInfo Err σ)
        (post : List (Fs File FileInfo Err σ)) (w w0 : σ),
        f.chain = pre ++ c :: post →
        passAll call pre w = some w0 →
        (c.invoke call w0).1.err.isSome = true →
        (f.logged.invoke call (w, [])).2.2.map Event.target
            = (List.range (pre.length + 1)).map Target.filter
        ∧ (f.logged.invoke call (w, [])).2.2.length = pre.length + 1
        ∧ (∀ e1 ∈ (f.logged.invoke call (w, [])).2.2, e1.call? = some call)
        ∧ (f.logged.invoke call (w, [])).2.2.getLast?
            = some (.op (.filter pre.length) call (c.invoke call w0).1)
        ∧ (∀ j, j ≤ pre.length →
            ((f.logged.invoke call (w, [])).2.2.map Event.target).count (.filter j) = 1)
        ∧ (∀ j, pre.length < j →
            ((f.logged.invoke call (w, [])).2.2.map Event.target).count (.filter j) = 0)
        ∧ ((f.logged.invoke call (w, [])).2.2.map Event.target).count .source = 0)
    ∧ (loggingThenReadOnly.chain = [ReadOnlyFilter, LoggingFilter]
        ∧ loggingThenReadOnly.logged.invoke (.Remove "/x") (heap0, [])
            = (.status (some errReadOnly),
                (heap0, [.op (.filter 0) (.Remove "/x") (.status (some errReadOnly))]))
        ∧ (loggingThenReadOnly.invoke (.Remove "/x") heap0).2.recorded = []) := by
  refine ⟨?_, ?_, by decide, by decide⟩
  · intro File FileInfo Err σ f call pre c post w w0 hc hpre hrej
    rw [logged_run]
    obtain ⟨h1, h2⟩ := passAll_then_reject call f.source pre c post 0 w w0 hpre hrej
    rw [← hc] at h1 h2
    obtain ⟨n, _, he, ht, hcalls⟩ := reject_found call f.source f.chain 0 w _ h2
    have hn : n = pre.length := by
      simp only [Event.op.injEq, Target.filter.injEq] at he
      omega
    subst hn
    have ht2 : (chainTrace call f.source 0 f.chain w).map Event.target
        = (List.range (pre.length + 1)).map Target.filter := by
      rw [ht, List.range_eq_range']
    obtain ⟨ps, m, t, g1, _, _, _⟩ := chainTrace_shape call f.source f.chain 0 w
    have hlast : (chainTrace call f.source 0 f.chain w).getLast?
        = some (.op t call (evalChain call f.source f.chain w).1) := by
      rw [g1]; simp
    have hmem : Event.op t call (evalChain call f.source f.chain w).1
        ∈ chainTrace call f.source 0 f.chain w := by
      rw [g1]; simp
    have hlen : (chainTrace call f.source 0 f.chain w).length = pre.length + 1 := by
      have := congrArg List.length ht2
      simpa using this
    have hps : ps.length = pre.length := by
      have := congrArg List.length g1
      simp [hlen] at this
      omega
    have htgt : t = .filter pre.length := by
      have h3 := ht2
      rw [g1, List.range_succ] at h3
      simp only [List.map_append, List.map_cons, List.map_nil, Event.target] at h3
      have h4 := List.append_inj' h3 (by simp)
      simpa using h4.2
    refine ⟨ht2, hlen, hcalls, ?_, ?_, ?_, ?_⟩
    · rw [hlast, htgt, h1]
    · intro j hj
      rw [ht2, count_filter_range]
      simp [Nat.lt_succ_of_le hj]
    · intro j hj
      rw [ht2, count_filter_range]
      have : ¬ j < pre.length + 1 := by omega
      simp [this]
    · rw [ht2, count_source_range]
  · simp [loggingThenReadOnly, AddFilter_chain, NewFilter]

/-- Witness of C2: `LoggingFilter` at position 0 passes and the filter at position 1
rejects `Create`; positions 0 and 1 are invoked, in that order, and nothing else. -/
theorem short_circuit_invocations_witness :
    passAll (.Create "/b.txt") [LoggingFilter] heap0
        = some { entries := ["/x", "/existing.txt"], recorded := [.Create "/b.txt"] }
      ∧ ((((NewFilter MemFs).AddFilter HandleAndErrorFilter).AddFilter LoggingFilter).logged.invoke
          (.Create "/b.txt") (heap0, [])).2.2.map Event.target
        = (List.range (1 + 1)).map Target.filter :=
  ⟨by decide,
    (short_circuit_invocations.1
      (((NewFilter MemFs).AddFilter HandleAndErrorFilter).AddFilter LoggingFilter)
      (.Create "/b.txt") [LoggingFilter] HandleAndErrorFilter [] heap0
      { entries := ["/x", "/existing.txt"], recorded := [.Create "/b.txt"] }
      (by simp [AddFilter_chain, NewFilter]) (by decide) (by decide)).1⟩

/-- C3: for every gated operation and every chain (non-empty or empty) in which every
filter returns a nil error, the invocations are each filter once, in chain order, and
then the source once, all with the caller's call; the source's invocation is the last
one, and the result of the `Filter` method (value and error) is the source's result,
whatever values the filters returned. -/
theorem all_pass_falls_through (f : Filter File FileInfo Err σ) (call : Call) (w : σ)
    (h : ∀ e ∈ (f.logged.invoke call (w, [])).2.2, e.isReject = false) :
    (f.logged.invoke call (w, [])).2.2.map Event.target
        = (List.range f.chain.length).map Target.filter ++ [Target.source]
      ∧ (∀ e1 ∈ (f.logged.invoke call (w, [])).2.2, e1.call? = some call)
      ∧ (∀ j, j < f.chain.length →
          ((f.logged.invoke call (w, [])).2.2.map Event.target).count (.filter j) = 1)
      ∧ ((f.logged.invoke call (w, [])).2.2.map Event.target).count .source = 1
      ∧ (f.logged.invoke call (w, [])).2.2.getLast?
          = some (.op .source call (f.logged.invoke call (w, [])).1)
      ∧ (f.logged.invoke call (w, [])).2.2.getLast?
          = some (.op .source call (f.invoke call w).1) := by
  rw [logged_run] at h ⊢
  obtain ⟨ht, hl, hc⟩ := no_reject call f.source f.chain 0 w h
  have ht2 : (chainTrace call f.source 0 f.chain w).map Event.target
      = (List.range f.chain.length).map Target.filter ++ [Target.source] := by
    rw [ht, List.range_eq_range']
  refine ⟨ht2, hc, ?_, ?_, ?_, ?_⟩
  · intro j hj
    rw [ht2, List.count_append, count_filter_range]
    simp [hj, List.count_singleton]
  · rw [ht2, List.count_append, count_source_range]
    simp [List.count_singleton]
  · simpa [invoke_eq_evalChain] using hl
  · simpa [invoke_eq_evalChain] using hl

/-- Witness of C3: `Open` of a stored file through `ReadOnlyFilter` and `LoggingFilter`,
which both pass it: both filters and then the source are invoked, and the source's
handle is returned. -/
theorem all_pass_falls_through_witness :
    (∀ e ∈ (loggingThenReadOnly.logged.invoke (.Open "/existing.txt") (heap0, [])).2.2,
        e.isReject = false)
      ∧ (loggingThenReadOnly.logged.invoke (.Open "/existing.txt") (heap0, [])).2.2.getLast?
          = some (.op .source (.Open "/existing.txt")
              (loggingThenReadOnly.invoke (.Open "/existing.txt") heap0).1)
      ∧ (loggingThenReadOnly.invoke (.Open "/existing.txt") heap0).1
          = .file (some "/existing.txt") none :=
  ⟨by decide,
    (all_pass_falls_through loggingThenReadOnly (.Open "/existing.txt") heap0 (by decide)).2.2.2.2.2,
    by decide⟩

/-- C4: `NewFilter(s)` has an empty chain and source `s`, and every operation on it (the
eleven gated operations and `Name`) gives the result and the heap that the operation
called directly on `s` gives; instrumented, the one invocation made is that operation on
the source. -/
theorem new_filter_is_pass_through (s : Fs File FileInfo Err σ) :
    (NewFilter s).chain = []
      ∧ (NewFilter s).source = s
      ∧ (∀ (call : Call) (w : σ), (NewFilter s).invoke call w = s.invoke call w)
      ∧ (∀ (w : σ), (NewFilter s).Name w = s.Name w)
      ∧ (∀ (call : Call) (w : σ), (NewFilter s).logged.invoke call (w, [])
          = ((s.invoke call w).1, ((s.invoke call w).2, [.op .source call (s.invoke call w).1])))
      ∧ (∀ (w : σ), (NewFilter s).logged.Name (w, [])
          = ((s.Name w).1, ((s.Name w).2, [.name .source (s.Name w).1])))
      ∧ ((∀ name w, (NewFilter s).Create name w = s.Create name w)
        ∧ (∀ name perm w, (NewFilter s).Mkdir name perm w = s.Mkdir name perm w)
        ∧ (∀ path perm w, (NewFilter s).MkdirAll path perm w = s.MkdirAll path perm w)
        ∧ (∀ name w, (NewFilter s).Open name w = s.Open name w)
        ∧ (∀ name flag perm w, (NewFilter s).OpenFile name flag perm w = s.OpenFile name flag perm w)
        ∧ (∀ name w, (NewFilter s).Remove name w = s.Remove name w)
        ∧ (∀ path w, (NewFilter s).RemoveAll path w = s.RemoveAll path w)
        ∧ (∀ oldname newname w, (NewFilter s).Rename oldname newname w = s.Rename oldname newname w)
        ∧ (∀ name w, (NewFilter s).Stat name w = s.Stat name w)
        ∧ (∀ name mode w, (NewFilter s).Chmod name mode w = s.Chmod name mode w)
        ∧ (∀ name atime mtime w,
            (NewFilter s).Chtimes name atime mtime w = s.Chtimes name atime mtime w)) := by
  refine ⟨rfl, rfl, ?_, fun _ => rfl, ?_, fun _ => rfl,
    fun _ _ => rfl, fun _ _ _ => rfl, fun _ _ _ => rfl, fun _ _ => rfl, fun _ _ _ _ => rfl,
    fun _ _ => rfl, fun _ _ => rfl, fun _ _ _ => rfl, fun _ _ => rfl, fun _ _ _ => rfl,
    fun _ _ _ _ => rfl⟩
  · intro call w
    rw [invoke_eq_evalChain]
    rfl
  · intro call w
    rw [logged_run, invoke_eq_evalChain]
    rfl

/-- C5: for every source and every sequence of filters added by `AddFilter`, in that
order, to a fresh `NewFilter`, the chain is the reverse of the order of addition and the
source is unchanged, so that every gated operation evaluates the filters last-added
first and then the source.  In particular `AddFilter(F1); AddFilter(F2)` gives the chain
`[F2, F1]`: a gated operation calls `F2`, then (if `F2` passed) `F1`, then (if `F1`
passed) the source. -/
theorem add_filter_order_is_reversed (s : Fs File FileInfo Err σ) :
    (∀ (fs : List (Fs File FileInfo Err σ)),
        (fs.foldl Filter.AddFilter (NewFilter s)).chain = fs.reverse
        ∧ (fs.foldl Filter.AddFilter (NewFilter s)).source = s
        ∧ (∀ (call : Call) (w : σ),
            (fs.foldl Filter.AddFilter (NewFilter s)).invoke call w
              = evalChain call s fs.reverse w)
        ∧ (∀ (call : Call) (w : σ),
            ((fs.foldl Filter.AddFilter (NewFilter s)).logged.invoke call (w, [])).2.2
              = chainTrace call s 0 fs.reverse w))
      ∧ (∀ (F1 F2 : Fs File FileInfo Err σ),
          (((NewFilter s).AddFilter F1).AddFilter F2).chain = [F2, F1]
          ∧ (((NewFilter s).AddFilter F1).AddFilter F2).source = s
          ∧ (∀ (call : Call) (w : σ),
              (((NewFilter s).AddFilter F1).AddFilter F2).invoke call w
                = if (F2.invoke call w).1.err.isSome then F2.invoke call w
                  else if (F1.invoke call (F2.invoke call w).2).1.err.isSome then
                    F1.invoke call (F2.invoke call w).2
                  else s.invoke call (F1.invoke call (F2.invoke call w).2).2)) := by
  have key : ∀ (fs : List (Fs File FileInfo Err σ)) (g : Filter File FileInfo Err σ),
      (fs.foldl Filter.AddFilter g).chain = fs.reverse ++ g.chain
        ∧ (fs.foldl Filter.AddFilter g).source = g.source := by
    intro fs
    induction fs with
    | nil => intro g; simp
    | cons x t ih =>
      intro g
      obtain ⟨h1, h2⟩ := ih (g.AddFilter x)
      simp [List.foldl, h1, h2, AddFilter_chain, AddFilter_source]
  refine ⟨fun fs => ?_, fun F1 F2 => ?_⟩
  · obtain ⟨h1, h2⟩ := key fs (NewFilter s)
    have h1 : (fs.foldl Filter.AddFilter (NewFilter s)).chain = fs.reverse := by
      simpa [NewFilter] using h1
    have h2 : (fs.foldl Filter.AddFilter (NewFilter s)).source = s := by
      simpa [NewFilter] using h2
    refine ⟨h1, h2, fun call w => ?_, fun call w => ?_⟩
    · rw [invoke_eq_evalChain, h1, h2]
    · rw [logged_run, h1, h2]
  · have hc : (((NewFilter s).AddFilter F1).AddFilter F2).chain = [F2, F1] := by
      simp [AddFilter_chain, NewFilter]
    refine ⟨hc, rfl, fun call w => ?_⟩
    rw [invoke_eq_evalChain, hc]
    simp only [evalChain, AddFilter_source, NewFilter]

/-- C6: for every chain and source, `Name` returns exactly what the source's `Name`
returns and leaves the heap as the source's `Name` leaves it; instrumented, the only
invocation is `Name` on the source, and no filter is invoked. -/
theorem name_bypasses_the_chain (f : Filter File FileInfo Err σ) (w : σ)
    (l : List (Event File FileInfo Err)) :
    f.Name w = f.source.Name w
      ∧ f.logged.Name (w, l)
          = ((f.source.Name w).1, ((f.source.Name w).2, l ++ [.name .source (f.source.Name w).1]))
      ∧ (∀ e ∈ (f.logged.Name (w, [])).2.2, e.onFilter = false) := by
  refine ⟨rfl, rfl, ?_⟩
  intro e he
  have h : (f.logged.Name (w, [])).2.2 = [.name .source (f.source.Name w).1] := rfl
  rw [h] at he
  simp at he
  subst he
  rfl

/-- C7, as stated, fails: `F2` rejects `Create` with the error `"denied"` but returns a
non-nil file handle beside it; the `Filter` returns that handle with the error, so the
value is not nil. -/
theorem rejection_value_not_nil_counterexample :
    (HandleAndErrorFilter.invoke (.Create "/a.txt") heap0).1.err = some "denied"
      ∧ ((((NewFilter MemFs).AddFilter LoggingFilter).AddFilter HandleAndErrorFilter).invoke
          (.Create "/a.txt") heap0).1 = .file (some "/a.txt") (some "denied")
      ∧ ((((NewFilter MemFs).AddFilter LoggingFilter).AddFilter HandleAndErrorFilter).invoke
          (.Create "/a.txt") heap0).1.hasValue = true
      ∧ ¬ (∀ (F1 F2 s : Fs String String String Heap) (call : Call) (w : Heap) (E2 : String),
            (F2.invoke call w).1.err = some E2 →
            ((((NewFilter s).AddFilter F1).AddFilter F2).invoke call w).1.err = some E2
              ∧ ((((NewFilter s).AddFilter F1).AddFilter F2).invoke call w).1.hasValue = false) := by
  refine ⟨by decide, by decide, by decide, ?_⟩
  intro h
  have h1 := (h LoggingFilter HandleAndErrorFilter MemFs (.Create "/a.txt") heap0 "denied"
    (by decide)).2
  revert h1
  decide

/-- C7, amended: with `F1` added first and `F2` added second, where `F2` rejects the call
with error `E2`, the `Filter` returns exactly what `F2` returned (the error `E2` and the
value `F2` returned with it, which is nil whenever `F2` returned a nil value) and leaves
the heap as `F2` left it; the only invocation is the one on `F2` at position 0, so `F1`
and the source are never invoked. -/
theorem rejection_by_last_added_filter (F1 F2 s : Fs File FileInfo Err σ) (call : Call)
    (w : σ) (E2 : Err) (h : (F2.invoke call w).1.err = some E2) :
    (((NewFilter s).AddFilter F1).AddFilter F2).invoke call w = F2.invoke call w
      ∧ ((((NewFilter s).AddFilter F1).AddFilter F2).invoke call w).1.err = some E2
      ∧ ((F2.invoke call w).1.hasValue = false →
          ((((NewFilter s).AddFilter F1).AddFilter F2).invoke call w).1.hasValue = false)
      ∧ ((((NewFilter s).AddFilter F1).AddFilter F2).logged.invoke call (w, [])).2.2
          = [.op (.filter 0) call (F2.invoke call w).1] := by
  have hc : (((NewFilter s).AddFilter F1).AddFilter F2).chain = [F2, F1] := by
    simp [AddFilter_chain, NewFilter]
  have he : (((NewFilter s).AddFilter F1).AddFilter F2).invoke call w = F2.invoke call w := by
    rw [invoke_eq_evalChain, hc]
    simp [evalChain, h]
  refine ⟨he, by rw [he]; exact h, fun hv => by rw [he]; exact hv, ?_⟩
  rw [logged_run, hc]
  simp [chainTrace, h]

/-- Witness of C7 amended: `ReadOnlyFilter` added after `LoggingFilter` rejects `Create`
with the read-only error and a nil handle. -/
theorem rejection_by_last_added_filter_witness :
    (ReadOnlyFilter.invoke (.Create "/a.txt") heap0).1.err = some errReadOnly
      ∧ (((NewFilter MemFs).AddFilter LoggingFilter).AddFilter ReadOnlyFilter).invoke
          (.Create "/a.txt") heap0 = (.file none (some errReadOnly), heap0)
      ∧ ((((NewFilter MemFs).AddFilter LoggingFilter).AddFilter ReadOnlyFilter).logged.invoke
          (.Create "/a.txt") (heap0, [])).2.2
          = [.op (.filter 0) (.Create "/a.txt") (ReadOnlyFilter.invoke (.Create "/a.txt") heap0).1] :=
  ⟨by decide, by decide,
    (rejection_by_last_added_filter LoggingFilter ReadOnlyFilter MemFs (.Create "/a.txt") heap0
      errReadOnly (by decide)).2.2.2⟩

/-- C8: for every gated operation, chain and argument, the `Filter` returns a nil error
exactly when every filter of the chain and then the source were invoked and each
returned a nil error; and the result the `Filter` returns (so also its error, nil or
not) is the result returned by the last capability invoked during the call, a filter or
the source: the `Filter` makes, wraps or replaces no error. -/
theorem error_is_relayed (f : Filter File FileInfo Err σ) (call : Call) (w : σ) :
    ((f.invoke call w).1.err = none ↔
        ((f.logged.invoke call (w, [])).2.2.map Event.target
            = (List.range f.chain.length).map Target.filter ++ [Target.source]
          ∧ ∀ e ∈ (f.logged.invoke call (w, [])).2.2, e.err = none))
      ∧ (∃ t, (f.logged.invoke call (w, [])).2.2.getLast? = some (.op t call (f.invoke call w).1))
      ∧ (∀ e, (f.logged.invoke call (w, [])).2.2.getLast? = some e →
          e.err = (f.invoke call w).1.err)
      ∧ (f.logged.invoke call (w, [])).1 = (f.invoke call w).1 := by
  rw [logged_run]
  simp only [invoke_eq_evalChain]
  obtain ⟨ps, n, t, h1, h2, h3, h4⟩ := chainTrace_shape call f.source f.chain 0 w
  have hlast : (chainTrace call f.source 0 f.chain w).getLast?
      = some (.op t call (evalChain call f.source f.chain w).1) := by
    rw [h1]; simp
  refine ⟨⟨fun hnil => ?_, fun hall => ?_⟩, ⟨t, hlast⟩, ?_, trivial⟩
  · rcases h4 with ⟨_, _, he⟩ | ⟨ht, hn⟩
    · simp [hnil] at he
    · subst ht; subst hn
      refine ⟨?_, ?_⟩
      · rw [h1]; simp [h2, Event.target, List.range_eq_range']
      · intro e he
        rw [h1] at he
        rcases List.mem_append.1 he with he | he
        · exact (h3 e he).1
        · simp at he; subst he; exact hnil
  · have := hall.2 (.op t call (evalChain call f.source f.chain w).1) (by rw [h1]; simp)
    exact this
  · intro e he
    rw [hlast] at he
    cases he
    rfl

/-- C9: for every `Filter` with chain `c` and source `s` and every filter `x`,
`AddFilter(x)` leaves the chain `x` followed by `c`, one longer, and the source `s`; no
identity check is made, so adding `x` again puts a second `x` in front. -/
theorem add_filter_prepends (f : Filter File FileInfo Err σ) (x : Fs File FileInfo Err σ) :
    (f.AddFilter x).chain = x :: f.chain
      ∧ (f.AddFilter x).chain.length = f.chain.length + 1
      ∧ (f.AddFilter x).chain.head? = some x
      ∧ (f.AddFilter x).chain.tail = f.chain
      ∧ (f.AddFilter x).source = f.source
      ∧ ((f.AddFilter x).AddFilter x).chain = x :: x :: f.chain := by
  have h := AddFilter_chain f x
  refine ⟨h, by simp [h], by simp [h], by simp [h], rfl, ?_⟩
  rw [AddFilter_chain, h]

/-- C10: for every gated operation and every chain in which some filter rejects, the
source is not invoked, and so every view of the heap that the filters themselves do not
change (the source filesystem's state) is after the call what it was before.  In
particular, with `ReadOnlyFilter` over the in-memory source, `Create("/a.txt")` returns
the fixed read-only error and `/a.txt` is not stored in the source afterwards. -/
theorem rejection_leaves_source_untouched :
    (∀ {File FileInfo Err σ α : Type} (view : σ → α) (f : Filter File FileInfo Err σ)
        (call : Call) (w : σ),
        (∀ c ∈ f.chain, ∀ w1, view (c.invoke call w1).2 = view w1) →
        (∃ e ∈ (f.logged.invoke call (w, [])).2.2, e.isReject = true) →
        (∀ e ∈ (f.logged.invoke call (w, [])).2.2, e.target ≠ .source)
        ∧ view (f.invoke call w).2 = view w
        ∧ view (f.logged.invoke call (w, [])).2.1 = view w)
      ∧ (readOnlyChain.invoke (.Create "/a.txt") heap0 = (.file none (some errReadOnly), heap0)
        ∧ "/a.txt" ∉ (readOnlyChain.invoke (.Create "/a.txt") heap0).2.entries
        ∧ (MemFs.Stat "/a.txt" (readOnlyChain.invoke (.Create "/a.txt") heap0).2).1
            = (none, some errNotExist)
        ∧ (readOnlyChain.logged.invoke (.Create "/a.txt") (heap0, [])).2.2
            = [.op (.filter 0) (.Create "/a.txt") (.file none (some errReadOnly))]) := by
  refine ⟨?_, by decide, by decide, by decide, by decide⟩
  intro File FileInfo Err σ α view f call w hpres hrej
  rw [logged_run] at hrej ⊢
  obtain ⟨e0, he0, hr0⟩ := hrej
  have hfind : ∃ e, (chainTrace call f.source 0 f.chain w).find? Event.isReject = some e := by
    cases hf : (chainTrace call f.source 0 f.chain w).find? Event.isReject with
    | some e => exact ⟨e, rfl⟩
    | none =>
      rw [List.find?_eq_none] at hf
      exact absurd hr0 (by simpa using hf e0 he0)
  obtain ⟨e, he⟩ := hfind
  obtain ⟨n, _, _, ht, _⟩ := reject_found call f.source f.chain 0 w e he
  have hsrc : ∀ e1 ∈ chainTrace call f.source 0 f.chain w, e1.target ≠ .source := by
    intro e1 he1 htgt
    have hmem : Target.source ∈ (chainTrace call f.source 0 f.chain w).map Event.target :=
      List.mem_map.2 ⟨e1, he1, htgt⟩
    rw [ht] at hmem
    simp at hmem
  have hv := view_preserved view call f.source f.chain 0 w hpres hsrc
  refine ⟨hsrc, ?_, ?_⟩
  · rw [invoke_eq_evalChain]; exact hv
  · simpa [invoke_eq_evalChain] using hv

/-- Witness of C10: `Remove` through `ReadOnlyFilter` and `LoggingFilter` is rejected by
`ReadOnlyFilter`; neither filter changes the stored paths, and they are unchanged. -/
theorem rejection_leaves_source_untouched_witness :
    (∃ e ∈ (loggingThenReadOnly.logged.invoke (.Remove "/x") (heap0, [])).2.2, e.isReject = true)
      ∧ Heap.entries (loggingThenReadOnly.invoke (.Remove "/x") heap0).2 = Heap.entries heap0 :=
  ⟨⟨.op (.filter 0) (.Remove "/x") (.status (some errReadOnly)), by decide, by decide⟩,
    (rejection_leaves_source_untouched.1 Heap.entries loggingThenReadOnly (.Remove "/x") heap0
      (by
        intro c hc w1
        have hc2 : c = ReadOnlyFilter ∨ c = LoggingFilter := by
          simpa [loggingThenReadOnly, AddFilter_chain, NewFilter] using hc
        rcases hc2 with rfl | rfl <;> rfl)
      ⟨.op (.filter 0) (.Remove "/x") (.status (some errReadOnly)), by decide, by decide⟩).2.1⟩

/-- C11: for every gated operation, every invocation the `Filter` makes, on a filter or
on the source, is recorded as the operation of the same name with exactly the caller's
arguments in the caller's order, and at least one invocation is made.  This holds of the
call through the uniform view and of each of the eleven methods called directly: no
method dispatches to another one (`MkdirAll` to `Mkdir`, `RemoveAll` to `Remove`,
`OpenFile` to `Open`) and no argument is swapped, dropped or altered. -/
theorem identical_operation_and_arguments (f : Filter File FileInfo Err σ) (w : σ) :
    (∀ call, (f.logged.invoke call (w, [])).2.2 ≠ []
        ∧ ∀ e ∈ (f.logged.invoke call (w, [])).2.2, e.call? = some call)
      ∧ (∀ name, ∀ e ∈ (f.logged.Create name (w, [])).2.2, e.call? = some (.Create name))
      ∧ (∀ name perm, ∀ e ∈ (f.logged.Mkdir name perm (w, [])).2.2,
          e.call? = some (.Mkdir name perm))
      ∧ (∀ path perm, ∀ e ∈ (f.logged.MkdirAll path perm (w, [])).2.2,
          e.call? = some (.MkdirAll path perm))
      ∧ (∀ name, ∀ e ∈ (f.logged.Open name (w, [])).2.2, e.call? = some (.Open name))
      ∧ (∀ name flag perm, ∀ e ∈ (f.logged.OpenFile name flag perm (w, [])).2.2,
          e.call? = some (.OpenFile name flag perm))
      ∧ (∀ name, ∀ e ∈ (f.logged.Remove name (w, [])).2.2, e.call? = some (.Remove name))
      ∧ (∀ path, ∀ e ∈ (f.logged.RemoveAll path (w, [])).2.2, e.call? = some (.RemoveAll path))
      ∧ (∀ oldname newname, ∀ e ∈ (f.logged.Rename oldname newname (w, [])).2.2,
          e.call? = some (.Rename oldname newname))
      ∧ (∀ name, ∀ e ∈ (f.logged.Stat name (w, [])).2.2, e.call? = some (.Stat name))
      ∧ (∀ name mode, ∀ e ∈ (f.logged.Chmod name mode (w, [])).2.2,
          e.call? = some (.Chmod name mode))
      ∧ (∀ name atime mtime, ∀ e ∈ (f.logged.Chtimes name atime mtime (w, [])).2.2,
          e.call? = some (.Chtimes name atime mtime)) := by
  have key : ∀ call, (f.logged.invoke call (w, [])).2.2 ≠ []
      ∧ ∀ e ∈ (f.logged.invoke call (w, [])).2.2, e.call? = some call := by
    intro call
    rw [logged_run]
    obtain ⟨ps, n, t, h1, _, h3, _⟩ := chainTrace_shape call f.source f.chain 0 w
    refine ⟨by simp [h1], ?_⟩
    intro e he
    simp only [h1] at he
    rcases List.mem_append.1 he with he | he
    · exact (h3 e he).2
    · simp at he; subst he; rfl
  exact ⟨key, fun a => (key (.Create a)).2, fun a b => (key (.Mkdir a b)).2,
    fun a b => (key (.MkdirAll a b)).2, fun a => (key (.Open a)).2,
    fun a b c => (key (.OpenFile a b c)).2, fun a => (key (.Remove a)).2,
    fun a => (key (.RemoveAll a)).2, fun a b => (key (.Rename a b)).2,
    fun a => (key (.Stat a)).2, fun a b => (key (.Chmod a b)).2,
    fun a b c => (key (.Chtimes a b c)).2⟩

/-- C12: a `Filter` with chain `A` whose source is a `Filter` with chain `B` and source
`s` (which `NewFilter` accepts like any other capability) behaves, for every gated
operation and `Name`, as the flattened `Filter` with chain `A ++ B` and source `s`: the
same result and heap, and, instrumented, the same invocations on the filters (those of
`B` counted after those of `A`) and on `s`. -/
theorem nested_filter_is_flattened (A B : List (Fs File FileInfo Err σ))
    (s : Fs File FileInfo Err σ) :
    (NewFilter (Filter.toFs { chain := B, source := s })).source
        = Filter.toFs { chain := B, source := s }
      ∧ (∀ (call : Call) (w : σ),
          Filter.invoke { chain := A, source := Filter.toFs { chain := B, source := s } } call w
            = Filter.invoke { chain := A ++ B, source := s } call w)
      ∧ (∀ (w : σ),
          Filter.Name { chain := A, source := Filter.toFs { chain := B, source := s } } w
            = Filter.Name { chain := A ++ B, source := s } w)
      ∧ (∀ (call : Call) (w : σ) (l : List (Event File FileInfo Err)),
          Filter.invoke
              { chain := logChain 0 A,
                source := Filter.toFs
                  { chain := logChain A.length B, source := s.logged .source } } call (w, l)
            = Filter.invoke (Filter.logged { chain := A ++ B, source := s }) call (w, l))
      ∧ (∀ (w : σ) (l : List (Event File FileInfo Err)),
          Filter.Name
              { chain := logChain 0 A,
                source := Filter.toFs
                  { chain := logChain A.length B, source := s.logged .source } } (w, l)
            = Filter.Name (Filter.logged { chain := A ++ B, source := s }) (w, l)) := by
  refine ⟨rfl, fun call w => ?_, fun _ => rfl, fun call w l => ?_, fun _ _ => rfl⟩
  · rw [invoke_eq_evalChain, invoke_eq_evalChain]
    exact evalChain_nested call s A B w
  · rw [invoke_eq_evalChain, invoke_eq_evalChain]
    simp only [Filter.logged, logChain_append, Nat.zero_add]
    exact evalChain_nested call (s.logged .source) (logChain 0 A) (logChain A.length B) (w, l)

/-- C13: each of the eleven gated methods is, for every chain, source, argument and
heap, the generic "evaluate chain then fallback to source" helper instantiated with the
method of the same name as the operation closure. -/
theorem every_operation_is_the_generic_helper (f : Filter File FileInfo Err σ) (w : σ) :
    (∀ name, f.Create name w
        = evalThenFallback (fun r => r.2.isSome) (fun c => c.Create name) f.source f.chain w)
      ∧ (∀ name perm, f.Mkdir name perm w
        = evalThenFallback (fun r => r.isSome) (fun c => c.Mkdir name perm) f.source f.chain w)
      ∧ (∀ path perm, f.MkdirAll path perm w
        = evalThenFallback (fun r => r.isSome) (fun c => c.MkdirAll path perm) f.source f.chain w)
      ∧ (∀ name, f.Open name w
        = evalThenFallback (fun r => r.2.isSome) (fun c => c.Open name) f.source f.chain w)
      ∧ (∀ name flag perm, f.OpenFile name flag perm w
        = evalThenFallback (fun r => r.2.isSome) (fun c => c.OpenFile name flag perm)
            f.source f.chain w)
      ∧ (∀ name, f.Remove name w
        = evalThenFallback (fun r => r.isSome) (fun c => c.Remove name) f.source f.chain w)
      ∧ (∀ path, f.RemoveAll path w
        = evalThenFallback (fun r => r.isSome) (fun c => c.RemoveAll path) f.source f.chain w)
      ∧ (∀ oldname newname, f.Rename oldname newname w
        = evalThenFallback (fun r => r.isSome) (fun c => c.Rename oldname newname)
            f.source f.chain w)
      ∧ (∀ name, f.Stat name w
        = evalThenFallback (fun r => r.2.isSome) (fun c => c.Stat name) f.source f.chain w)
      ∧ (∀ name mode, f.Chmod name mode w
        = evalThenFallback (fun r => r.isSome) (fun c => c.Chmod name mode) f.source f.chain w)
      ∧ (∀ name atime mtime, f.Chtimes name atime mtime w
        = evalThenFallback (fun r => r.isSome) (fun c => c.Chtimes name atime mtime)
            f.source f.chain w) :=
  ⟨fun a => CreateLoop_generic f.source a f.chain w,
    fun a b => MkdirLoop_generic f.source a b f.chain w,
    fun a b => MkdirAllLoop_generic f.source a b f.chain w,
    fun a => OpenLoop_generic f.source a f.chain w,
    fun a b c => OpenFileLoop_generic f.source a b c f.chain w,
    fun a => RemoveLoop_generic f.source a f.chain w,
    fun a => RemoveAllLoop_generic f.source a f.chain w,
    fun a b => RenameLoop_generic f.source a b f.chain w,
    fun a => StatLoop_generic f.source a f.chain w,
    fun a b => ChmodLoop_generic f.source a b f.chain w,
    fun a b c => ChtimesLoop_generic f.source a b c f.chain w⟩

/-- C14, as stated, fails: a filter that holds the `Filter` and calls `AddFilter` on it
while `Remove` runs (it passes, and the source accepts) leaves the `Filter` with the
chain `[2, 1]` where it was `[1]` before the call. -/
theorem reentrant_add_filter_counterexample :
    theCell.chain cellHeapReentrant = [1]
      ∧ theCell.invoke cellObj (.Remove "/x") cellHeapReentrant
          = (.status none, { chain := [2, 1], source := 0 })
      ∧ theCell.chain (theCell.invoke cellObj (.Remove "/x") cellHeapReentrant).2
          ≠ theCell.chain cellHeapReentrant
      ∧ ¬ (∀ (call : Call) (w : CellHeap),
            theCell.chain (theCell.invoke cellObj call w).2 = theCell.chain w) := by
  refine ⟨by decide, by decide, by decide, ?_⟩
  intro h
  have h1 := h (.Remove "/x") cellHeapReentrant
  revert h1
  decide

/-- C14, amended: the gated operations and `Name` assign nothing to the `Filter`'s chain
and source themselves.  When the filters the chain holds on entry and the source leave
these two fields as they find them on being invoked, the chain (contents, order, length)
and the source reference are after a gated call what they were before it, whether the
call short-circuits or falls through; `Name` is the call of the source's `Name` and
nothing else; `AddFilter` puts its argument in front of the chain and leaves the
source. -/
theorem operations_assign_no_field (cell : Cell σ) (obj : Ref → Fs File FileInfo Err σ)
    (call : Call) (w : σ)
    (hfilters : ∀ r ∈ cell.chain w, ∀ w1,
      cell.chain ((obj r).invoke call w1).2 = cell.chain w1
        ∧ cell.source ((obj r).invoke call w1).2 = cell.source w1)
    (hsource : ∀ w1,
      cell.chain ((obj (cell.source w)).invoke call w1).2 = cell.chain w1
        ∧ cell.source ((obj (cell.source w)).invoke call w1).2 = cell.source w1) :
    cell.chain (cell.invoke obj call w).2 = cell.chain w
      ∧ cell.source (cell.invoke obj call w).2 = cell.source w
      ∧ cell.Name obj w = (obj (cell.source w)).Name w
      ∧ (∀ x, cell.chain (cell.AddFilter x w) = x :: cell.chain w
          ∧ cell.source (cell.AddFilter x w) = cell.source w) := by
  have hv := view_kept (fun w1 => (cell.chain w1, cell.source w1)) call (cell.sourceFs obj)
    ((cell.chain w).map obj) w
    (by
      intro c hc w1
      obtain ⟨r, hr, rfl⟩ := List.mem_map.1 hc
      obtain ⟨h1, h2⟩ := hfilters r hr w1
      simp only [h1, h2])
    (by
      intro w1 hw1
      have hsrc : cell.source w1 = cell.source w := congrArg Prod.snd hw1
      rw [sourceFs_invoke, hsrc]
      obtain ⟨h1, h2⟩ := hsource w1
      simp only [h1, h2])
  have he : cell.invoke obj call w
      = evalChain call (cell.sourceFs obj) ((cell.chain w).map obj) w := by
    simp only [Cell.invoke, invoke_eq_evalChain, Cell.receiver]
  refine ⟨?_, ?_, rfl, fun x => ⟨?_, ?_⟩⟩
  · rw [he]; exact congrArg Prod.fst hv
  · rw [he]; exact congrArg Prod.snd hv
  · simp [Cell.AddFilter, cell.chain_setChain, foldl_append_singleton]
  · simp [Cell.AddFilter, cell.source_setChain]

/-- Witness of C14 amended: a `Filter` whose only filter is the read-only one, over the
accepting source; `Remove` is rejected and the chain is `[2]` before and after. -/
theorem operations_assign_no_field_witness :
    theCell.invoke cellObj (.Remove "/x") cellHeapReadOnly
        = (.status (some errReadOnly), cellHeapReadOnly)
      ∧ theCell.chain (theCell.invoke cellObj (.Remove "/x") cellHeapReadOnly).2
          = theCell.chain cellHeapReadOnly :=
  ⟨by decide,
    (operations_assign_no_field theCell cellObj (.Remove "/x") cellHeapReadOnly
      (by
        intro r hr w1
        have hr2 : r = 2 := by simpa [theCell, cellHeapReadOnly] using hr
        subst hr2
        exact ⟨rfl, rfl⟩)
      (fun _ => ⟨rfl, rfl⟩)).1⟩

/-- C15: no retry and no rollback.  Within one call every chain position and the source
are invoked at most once; and for `LoggingFilter` (which records the call and passes)
evaluated before `ReadOnlyFilter` (which rejects), `Mkdir` returns the read-only error
while what `LoggingFilter` recorded is still in the heap after the call. -/
theorem no_retry_no_rollback :
    (∀ {File FileInfo Err σ : Type} (f : Filter File FileInfo Err σ) (call : Call) (w : σ),
        ((f.logged.invoke call (w, [])).2.2.map Event.target).Nodup
        ∧ ∀ t, ((f.logged.invoke call (w, [])).2.2.map Event.target).count t ≤ 1)
      ∧ (readOnlyThenLogging.chain = [LoggingFilter, ReadOnlyFilter]
        ∧ readOnlyThenLogging.invoke (.Mkdir "/d" 493) heap0
            = (.status (some errReadOnly),
                { entries := ["/x", "/existing.txt"], recorded := [.Mkdir "/d" 493] })
        ∧ (readOnlyThenLogging.invoke (.Mkdir "/d" 493) heap0).2 ≠ heap0
        ∧ (readOnlyThenLogging.logged.invoke (.Mkdir "/d" 493) (heap0, [])).2.2
            = [.op (.filter 0) (.Mkdir "/d" 493) (.status none),
               .op (.filter 1) (.Mkdir "/d" 493) (.status (some errReadOnly))]) := by
  refine ⟨?_, ?_, by decide, by decide, by decide⟩
  · intro File FileInfo Err σ f call w
    rw [logged_run]
    obtain ⟨ps, n, t, h1, h2, _, h4⟩ := chainTrace_shape call f.source f.chain 0 w
    have hnd : ((chainTrace call f.source 0 f.chain w).map Event.target).Nodup := by
      have hinj : Function.Injective Target.filter := fun a b h => by cases h; rfl
      have hps : ((List.range' 0 n).map Target.filter).Nodup :=
        (List.nodup_range' 0 n).map hinj
      rw [h1, List.map_append, h2]
      refine List.Nodup.append hps (by simp) ?_
      rcases h4 with ⟨ht, _, _⟩ | ⟨ht, _⟩
      · subst ht
        simp only [Event.target, List.map_cons, List.map_nil, List.disjoint_singleton,
          List.mem_map, List.mem_range', not_exists, not_and]
        intro a ha heq
        cases heq
        omega
      · subst ht
        simp [Event.target, List.Disjoint]
    exact ⟨hnd, fun t => List.nodup_iff_count_le_one.1 hnd t⟩
  · simp [readOnlyThenLogging, AddFilter_chain, NewFilter]

/-- C16: adding a transparent filter `p` (one that returns a nil error for every
operation and argument and changes no state) changes no gated operation's result or
heap and not the result of `Name`; instrumented, the invocations are `p` at position 0
followed by exactly the invocations made without `p`, each filter one position further
down, and `Name` makes the same invocation as before. -/
theorem transparent_filter_is_identity (f : Filter File FileInfo Err σ)
    (p : Fs File FileInfo Err σ)
    (hp : ∀ call w, (p.invoke call w).1.err = none ∧ (p.invoke call w).2 = w)
    (call : Call) (w : σ) :
    (f.AddFilter p).invoke call w = f.invoke call w
      ∧ (f.AddFilter p).Name w = f.Name w
      ∧ ((f.AddFilter p).logged.invoke call (w, [])).1 = (f.logged.invoke call (w, [])).1
      ∧ ((f.AddFilter p).logged.invoke call (w, [])).2.2
          = .op (.filter 0) call (p.invoke call w).1
              :: (f.logged.invoke call (w, [])).2.2.map Event.shift
      ∧ ((f.AddFilter p).logged.Name (w, [])) = (f.logged.Name (w, [])) := by
  obtain ⟨h1, h2⟩ := hp call w
  have he : (f.AddFilter p).invoke call w = f.invoke call w := by
    rw [invoke_eq_evalChain, invoke_eq_evalChain, AddFilter_chain, AddFilter_source]
    simp [evalChain, h1, h2]
  refine ⟨he, rfl, ?_, ?_, rfl⟩
  · rw [logged_run, logged_run, he]
  · rw [logged_run, logged_run, AddFilter_chain, AddFilter_source]
    simp [chainTrace, h1, h2, chainTrace_shift]

/-- Witness of C16: `PassFilter` added in front of `LoggingFilter` and `ReadOnlyFilter`
changes neither the result nor the heap of `Remove`. -/
theorem transparent_filter_is_identity_witness :
    (∀ call w, (PassFilter.invoke call w).1.err = none ∧ (PassFilter.invoke call w).2 = w)
      ∧ (loggingThenReadOnly.AddFilter PassFilter).invoke (.Remove "/x") heap0
          = (.status (some errReadOnly), heap0)
      ∧ (loggingThenReadOnly.AddFilter PassFilter).invoke (.Remove "/x") heap0
          = loggingThenReadOnly.invoke (.Remove "/x") heap0 :=
  ⟨fun call w => by cases call <;> exact ⟨rfl, rfl⟩, by decide,
    (transparent_filter_is_identity loggingThenReadOnly PassFilter
      (fun call w => by cases call <;> exact ⟨rfl, rfl⟩) (.Remove "/x") heap0).1⟩

end Afero
